import Mathlib

/-!
# nwatowav: index parsing and extraction pipeline

A shallow embedding of `src/nwatowav.go` (`processNWAFile`, `doDecode`) together with
the library functions it calls (`strings.Contains`, `strings.Split`, `filepath.Base`,
`filepath.Dir`, `filepath.Join`, `binary.Read`, `io.CopyN`), followed by theorems about
the embedding.

Modelling conventions
* A file is the list of its bytes; a reader over a file is the list of bytes not yet read.
* Go's `int32`/`int64` values are `Int`; the only conversions in the source are widenings.
* The file system is an association list from paths to contents plus the list of paths
  at which `os.Create` fails.
* The external codec `nwa.NewNwaFile` is a parameter.
* Goroutines started by `go doDecode(...)` are run to completion one after the other in
  dispatch order, after the dispatch loop and before the receive loop.  The channel is
  buffered with capacity `indexcount`, so a send never blocks.
* `log.Fatal` ends the run with exit `fatal`; a receive on a channel that no remaining
  goroutine can send on ends the run with exit `deadlock`.
-/

namespace Nwatowav

/-! ## Bytes and integers -/

abbrev Byte := Fin 256

/-- The value of `binary.LittleEndian.Uint32` on the first four bytes of `b`. -/
def leUint32 (b : List Byte) : Nat :=
  (b.getD 0 0).val + (b.getD 1 0).val * 2 ^ 8 + (b.getD 2 0).val * 2 ^ 16
    + (b.getD 3 0).val * 2 ^ 24

/-- Conversion `int32(u)` of a 32-bit pattern: two's complement. -/
def toInt32 (u : Nat) : Int :=
  if u % 2 ^ 32 < 2 ^ 31 then ((u % 2 ^ 32 : Nat) : Int) else ((u % 2 ^ 32 : Nat) : Int) - 2 ^ 32

/-- The signed little-endian 32-bit value held in the first four bytes of `b`. -/
def leInt32 (b : List Byte) : Int := toInt32 (leUint32 b)

/-- Call `binary.Read(r, binary.LittleEndian, &x)` for an `int32` variable whose current
value is `cur`: with four bytes available they are consumed and decoded; otherwise
`io.ReadFull` drains the reader, the call returns an error (which the source ignores)
and the variable keeps its value.  Returns the variable and the reader afterwards. -/
def binaryRead (r : List Byte) (cur : Int) : Int × List Byte :=
  if 4 ≤ r.length then (leInt32 (r.take 4), r.drop 4) else (cur, [])

/-! ## Strings and paths (Go `strings` and Unix `path/filepath`) -/

/-- Function `strings.Contains` on character lists: `sub` occurs somewhere in `s`. -/
def containsChars : List Char → List Char → Bool
  | [], sub => sub.isEmpty
  | c :: cs, sub => sub.isPrefixOf (c :: cs) || containsChars cs sub

/-- Function `strings.Contains(s, substr)`. -/
def stringsContains (s substr : String) : Bool := containsChars s.data substr.data

/-- Splitting a character list at every occurrence of `sep`; the result is never empty. -/
def splitOnChar (sep : Char) : List Char → List (List Char)
  | [] => [[]]
  | c :: cs =>
    if c = sep then [] :: splitOnChar sep cs
    else
      match splitOnChar sep cs with
      | [] => [[c]]
      | h :: t => (c :: h) :: t

/-- Function `strings.Split(s, sep)` for a one-character separator. -/
def stringsSplit (s : String) (sep : Char) : List String :=
  (splitOnChar sep s.data).map String.mk

/-- Function `filepath.Base` on Unix: trailing slashes are stripped, the last element is
kept; the empty path gives `"."` and a path of slashes only gives `"/"`. -/
def filepathBase (path : String) : String :=
  if path.data = [] then "."
  else
    let stripped := (path.data.reverse.dropWhile (fun c => c = '/')).reverse
    let last := (stripped.reverse.takeWhile (fun c => c ≠ '/')).reverse
    if last = [] then "/" else String.mk last

/-- One element of the path being cleaned; `stack` holds the kept elements, last first. -/
def cleanStep (rooted : Bool) (stack : List (List Char)) (comp : List Char) :
    List (List Char) :=
  if comp = [] ∨ comp = ['.'] then stack
  else if comp = ['.', '.'] then
    match stack with
    | top :: below => if top = ['.', '.'] then comp :: stack else below
    | [] => if rooted then [] else [comp]
  else comp :: stack

/-- Path elements joined by single slashes. -/
def joinSlash : List (List Char) → List Char
  | [] => []
  | [x] => x
  | x :: y :: r => x ++ '/' :: joinSlash (y :: r)

/-- Function `filepath.Clean` on Unix, on character lists. -/
def cleanChars (path : List Char) : List Char :=
  let rooted : Bool := path.head? = some '/'
  let stack := (splitOnChar '/' path).foldl (cleanStep rooted) []
  let out := (if rooted then ['/'] else []) ++ joinSlash stack.reverse
  if out = [] then ['.'] else out

/-- Function `filepath.Clean` on Unix. -/
def filepathClean (path : String) : String := String.mk (cleanChars path.data)

/-- Function `filepath.Join(dir, name)` on Unix: the elements from the first non-empty one
on are joined by a slash and the result is cleaned; all elements empty gives `""`. -/
def filepathJoin (dir name : String) : String :=
  if dir.data ≠ [] then String.mk (cleanChars (dir.data ++ '/' :: name.data))
  else if name.data ≠ [] then String.mk (cleanChars name.data)
  else ""

/-- Function `filepath.Dir` on Unix: the path up to its last slash, cleaned. -/
def filepathDir (path : String) : String :=
  String.mk (cleanChars (path.data.reverse.dropWhile (fun c => c ≠ '/')).reverse)

/-! ## File system, diagnostics and the state of a run -/

/-- Files by path (the first binding of a path is the file) and the paths at which
`os.Create` fails. -/
structure FS where
  files : List (String × List Byte)
  denied : List String
deriving DecidableEq

/-- Content of the file at `p`, if there is one (`os.Open` followed by reads). -/
def FS.read (fs : FS) (p : String) : Option (List Byte) := fs.files.lookup p

/-- File system after `os.Create(p)` and writing `data` to it. -/
def FS.write (fs : FS) (p : String) (data : List Byte) : FS :=
  { fs with files := (p, data) :: fs.files }

/-- Non-fatal diagnostics written by `log.Printf`. -/
inductive Diag where
  | unrecognized (inputfile : String)
  | invalidCount (inputfile : String) (indexcount : Int)
  | invalidEntry (inputfile : String) (i : Nat) (cnt off size : Int)
deriving DecidableEq

/-- Observable state of a run: the file system, the successful `os.Open` and `os.Create`
calls in order, and the diagnostics in order. -/
structure World where
  fs : FS
  opened : List String
  created : List String
  logs : List Diag
deriving DecidableEq

def World.openFile (w : World) (p : String) : World := { w with opened := w.opened ++ [p] }

def World.createFile (w : World) (p : String) (data : List Byte) : World :=
  { w with fs := w.fs.write p data, created := w.created ++ [p] }

def World.logDiag (w : World) (d : Diag) : World := { w with logs := w.logs ++ [d] }

/-- What `io.Copy` obtains from a reader: all of its bytes, or some bytes and an error. -/
inductive Stream where
  | full (bytes : List Byte)
  | broken (bytes : List Byte)
deriving DecidableEq

/-- The external codec `nwa.NewNwaFile`: `none` when the constructor returns an error,
otherwise the decoded stream. -/
abbrev Codec := List Byte → Option Stream

inductive fileType where
  | NONE
  | NWA
  | NWK
  | OVK
deriving DecidableEq

/-- Result of the `switch` at the head of `processNWAFile`. -/
structure Kind where
  filetype : fileType
  headblksz : Nat
  outext : String
deriving DecidableEq

/-- The `switch` of `processNWAFile` (lines 73-85); variables not assigned keep their
zero values. -/
def classify (inputfile : String) : Kind :=
  if stringsContains inputfile ".nwa" then ⟨fileType.NWA, 0, "wav"⟩
  else if stringsContains inputfile ".nwk" then ⟨fileType.NWK, 12, "wav"⟩
  else if stringsContains inputfile ".ovk" then ⟨fileType.OVK, 16, "ogg"⟩
  else ⟨fileType.NONE, 0, ""⟩

/-- Arguments of one `go doDecode(...)` call (the channel apart). -/
structure Task where
  filetype : fileType
  filename : String
  datafile : String
  offset : Int
  size : Int
deriving DecidableEq

/-- Result of running a goroutine or a group of them: the process was terminated by
`log.Fatal`, or they finished and the channel holds `sent` tokens. -/
inductive Run where
  | fatal (w : World)
  | done (w : World) (sent : Nat)
deriving DecidableEq

/-- Lines 191-198 (and 108-116): `os.Create(filename)` and `io.Copy(out, data)`.
`none` stands for `log.Fatal` before the file exists; a broken stream leaves the bytes
copied so far in the file and is fatal as well. -/
def createAndCopy (w : World) (filename : String) (data : Stream) : World × Bool :=
  if filename ∈ w.fs.denied then (w, false)
  else
    match data with
    | Stream.full bytes => (w.createFile filename bytes, true)
    | Stream.broken bytes => (w.createFile filename bytes, false)

/-- Function `doDecode`; `c` is the number of tokens in the channel at the start. -/
def doDecode (codec : Codec) (filetype : fileType) (filename datafile : String)
    (offset size : Int) (w : World) (c : Nat) : Run :=
  match w.fs.read datafile with
  | none => Run.fatal w
  | some file =>
    let w1 := w.openFile datafile
    -- file.Seek(int64(offset), 0): a negative offset is an error, which is ignored,
    -- and leaves the position at 0
    let pos := if offset < 0 then 0 else offset.toNat
    -- io.CopyN(buffer, file, int64(size))
    let buffer := (file.drop pos).take size.toNat
    if (buffer.length : Int) ≠ size then Run.fatal w1
    else
      let data : Option Stream :=
        if filetype = fileType.NWK then codec buffer else some (Stream.full buffer)
      match data with
      | none => Run.fatal w1
      | some stream =>
        match createAndCopy w1 filename stream with
        | (w2, false) => Run.fatal w2
        | (w2, true) => Run.done w2 (c + 1)

/-- The goroutines of one archive, run in the given order. -/
def runTasks (codec : Codec) : List Task → World → Nat → Run
  | [], w, c => Run.done w c
  | t :: ts, w, c =>
    match doDecode codec t.filetype t.filename t.datafile t.offset t.size w c with
    | Run.fatal w1 => Run.fatal w1
    | Run.done w1 c1 => runTasks codec ts w1 c1

/-- The four parallel slices of `processNWAFile`. -/
structure IndexTables where
  tblsiz : List Int
  tbloff : List Int
  tblcnt : List Int
  tblorigsiz : List Int
deriving DecidableEq

/-- The index loop (lines 141-150) for `n` remaining records over the reader `file`:
`Except.error k` when `io.CopyN` came up short after `k` complete records
(`log.Fatal`), otherwise the slices. -/
def readIndex (headblksz : Nat) : Nat → List Byte → Except Nat IndexTables
  | 0, _ => Except.ok ⟨[], [], [], []⟩
  | n + 1, file =>
    let buffer := file.take headblksz
    if buffer.length ≠ headblksz then Except.error 0
    else
      let r1 := binaryRead buffer 0
      let r2 := binaryRead r1.2 0
      let r3 := binaryRead r2.2 0
      let r4 := binaryRead r3.2 0
      match readIndex headblksz n (file.drop headblksz) with
      | Except.error k => Except.error (k + 1)
      | Except.ok t =>
        Except.ok ⟨r1.1 :: t.tblsiz, r2.1 :: t.tbloff, r3.1 :: t.tblcnt, r4.1 :: t.tblorigsiz⟩

/-- Formatting `fmt.Sprintf("%s-%d.%s", outfilename, cnt, outext)`. -/
def entryName (outfilename : String) (cnt : Int) (outext : String) : String :=
  outfilename ++ "-" ++ toString cnt ++ "." ++ outext

/-- Body of the dispatch loop (lines 154-159) at index `i`: the diagnostic of a skipped
entry or the task of a dispatched one. -/
def dispatchEntry (inputdir inputfile outfilename : String) (k : Kind) (t : IndexTables)
    (i : Nat) : Diag ⊕ Task :=
  if t.tbloff.getD i 0 ≤ 0 ∨ t.tblsiz.getD i 0 ≤ 0 then
    Sum.inl (Diag.invalidEntry inputfile i (t.tblcnt.getD i 0) (t.tbloff.getD i 0)
      (t.tblsiz.getD i 0))
  else
    Sum.inr ⟨k.filetype, filepathJoin inputdir (entryName outfilename (t.tblcnt.getD i 0) k.outext),
      inputfile, t.tbloff.getD i 0, t.tblsiz.getD i 0⟩

/-- One iteration of the dispatch loop on the diagnostics and tasks so far. -/
def dispatchStep (inputdir inputfile outfilename : String) (k : Kind) (t : IndexTables)
    (st : List Diag × List Task) (i : Nat) : List Diag × List Task :=
  match dispatchEntry inputdir inputfile outfilename k t i with
  | Sum.inl d => (st.1 ++ [d], st.2)
  | Sum.inr task => (st.1, st.2 ++ [task])

/-- The dispatch loop (lines 153-160) over `i = 0 .. n-1`. -/
def dispatchLoop (inputdir inputfile outfilename : String) (k : Kind) (t : IndexTables)
    (n : Nat) : List Diag × List Task :=
  (List.range n).foldl (dispatchStep inputdir inputfile outfilename k t) ([], [])

/-- The receive loop (lines 161-163) once every goroutine has finished: `n` receives on a
channel holding `c` tokens.  `none` when a receive finds the channel empty, which blocks
for ever. -/
def receiveAll : Nat → Nat → Option Nat
  | 0, c => some c
  | _ + 1, 0 => none
  | n + 1, c + 1 => receiveAll n c

/-- How a call of `processNWAFile` ends. -/
inductive Exit where
  | returned
  | fatal
  | deadlock
deriving DecidableEq

/-- A call of `processNWAFile` as observed: how it ended, the state it left, the number
of complete index records read, the tasks started by `go doDecode` in order, and the
number of receives the final loop is set to perform. -/
structure Outcome where
  exit : Exit
  world : World
  recordsRead : Nat
  dispatched : List Task
  awaited : Nat
deriving DecidableEq

/-- Base name for the outputs (line 91): `strings.Split(filepath.Base(inputfile), ".")[0]`. -/
def outputStem (inputfile : String) : String :=
  (stringsSplit (filepathBase inputfile) '.').headD ""

/-- Function `processNWAFile`; `inputdir` is the value of the flag `*inputdir`. -/
def processNWAFile (codec : Codec) (inputdir inputfile : String) (w : World) : Outcome :=
  let k := classify inputfile
  if k.filetype = fileType.NONE then
    ⟨Exit.returned, w.logDiag (Diag.unrecognized inputfile), 0, [], 0⟩
  else
    let outfilename := outputStem inputfile
    if k.filetype = fileType.NWA then
      match w.fs.read inputfile with
      | none => ⟨Exit.fatal, w, 0, [], 0⟩
      | some file =>
        let w1 := w.openFile inputfile
        match codec file with
        | none => ⟨Exit.fatal, w1, 0, [], 0⟩
        | some data =>
          let outdir := filepathDir inputfile
          let outpath := filepathJoin outdir (outfilename ++ "." ++ k.outext)
          match createAndCopy w1 outpath data with
          | (w2, false) => ⟨Exit.fatal, w2, 0, [], 0⟩
          | (w2, true) => ⟨Exit.returned, w2, 0, [], 0⟩
    else
      match w.fs.read inputfile with
      | none => ⟨Exit.fatal, w, 0, [], 0⟩
      | some file =>
        let w1 := w.openFile inputfile
        let rd := binaryRead file 0
        let indexcount := rd.1
        if indexcount ≤ 0 then
          ⟨Exit.returned, w1.logDiag (Diag.invalidCount inputfile indexcount), 0, [], 0⟩
        else
          match readIndex k.headblksz indexcount.toNat rd.2 with
          | Except.error r => ⟨Exit.fatal, w1, r, [], 0⟩
          | Except.ok t =>
            let lp := dispatchLoop inputdir inputfile outfilename k t indexcount.toNat
            let w2 : World := { w1 with logs := w1.logs ++ lp.1 }
            match runTasks codec lp.2 w2 0 with
            | Run.fatal w3 => ⟨Exit.fatal, w3, indexcount.toNat, lp.2, indexcount.toNat⟩
            | Run.done w3 c =>
              match receiveAll indexcount.toNat c with
              | none => ⟨Exit.deadlock, w3, indexcount.toNat, lp.2, indexcount.toNat⟩
              | some _ => ⟨Exit.returned, w3, indexcount.toNat, lp.2, indexcount.toNat⟩

/-- The calls of `processNWAFile` made by `main` one after the other (line 48, then the
loop of lines 62-64): the next file is processed once the call for the previous one has
returned. -/
def processFiles (codec : Codec) (inputdir : String) : List String → World → Exit × World
  | [], w => (Exit.returned, w)
  | f :: rest, w =>
    let o := processNWAFile codec inputdir f w
    if o.exit = Exit.returned then processFiles codec inputdir rest o.world
    else (o.exit, o.world)

/-! ## Notions used to state the properties -/

/-- Substring containment: `sub` occurs in `s` as a contiguous run of characters. -/
def HasSubstring (s sub : String) : Prop := ∃ a b : List Char, s.data = a ++ sub.data ++ b

/-- The signed little-endian 32-bit value at byte position `pos` of `arc`. -/
def int32At (arc : List Byte) (pos : Nat) : Int := leInt32 (arc.drop pos)

/-- A kind is multi-stream when it is kind-A (`.nwk`) or kind-B (`.ovk`). -/
def Kind.multi (k : Kind) : Prop := k.filetype = fileType.NWK ∨ k.filetype = fileType.OVK

instance (k : Kind) : Decidable k.multi := by
  unfold Kind.multi; infer_instance

/-- Validity of index position `i`: `offset[i] > 0` and `size[i] > 0`. -/
def validAt (t : IndexTables) (i : Nat) : Prop := 0 < t.tbloff.getD i 0 ∧ 0 < t.tblsiz.getD i 0

instance (t : IndexTables) (i : Nat) : Decidable (validAt t i) := by
  unfold validAt; infer_instance

/-- The positions below `n` holding a valid entry, in order. -/
def validPositions (t : IndexTables) (n : Nat) : List Nat :=
  (List.range n).filter (fun i => decide (validAt t i))

/-- The sequence numbers of the valid positions below `n`, in order. -/
def validSequenceNumbers (t : IndexTables) (n : Nat) : List Int :=
  (validPositions t n).map (fun i => t.tblcnt.getD i 0)

/-- The byte range `[offset[i], offset[i] + size[i])` of the archive. -/
def entryRange (arc : List Byte) (t : IndexTables) (i : Nat) : List Byte :=
  (arc.drop (t.tbloff.getD i 0).toNat).take (t.tblsiz.getD i 0).toNat

/-- The task the dispatcher builds for a valid position `i` (line 158-159). -/
def taskFor (inputdir inputfile : String) (k : Kind) (t : IndexTables) (i : Nat) : Task :=
  ⟨k.filetype, filepathJoin inputdir (entryName (outputStem inputfile) (t.tblcnt.getD i 0) k.outext),
    inputfile, t.tbloff.getD i 0, t.tblsiz.getD i 0⟩

/-- The destination built for the sequence number `cnt` (line 158). -/
def destinationFor (inputdir inputfile : String) (cnt : Int) : String :=
  filepathJoin inputdir (entryName (outputStem inputfile) cnt (classify inputfile).outext)

/-- Number of distinct elements of a list. -/
def distinctCount {α : Type} [DecidableEq α] (l : List α) : Nat := l.dedup.length

/-- A task that `doDecode` completes on the archive `arc` stored at `inputfile`: its range
lies in the archive, the codec (for kind-A) decodes it in full, and its destination can be
created and is not the archive. -/
def Extractable (codec : Codec) (inputfile : String) (arc : List Byte) (denied : List String)
    (task : Task) : Prop :=
  task.datafile = inputfile ∧ 0 ≤ task.offset ∧ 0 ≤ task.size ∧
  task.offset + task.size ≤ arc.length ∧ task.filename ≠ inputfile ∧ task.filename ∉ denied ∧
  ∃ bytes, (if task.filetype = fileType.NWK
      then codec ((arc.drop task.offset.toNat).take task.size.toNat)
      else some (Stream.full ((arc.drop task.offset.toNat).take task.size.toNat)))
    = some (Stream.full bytes)

/-- Function `filepath.Ext` applied to a base name: the suffix from its final dot on,
empty when it has no dot. -/
def extChars (base : List Char) : List Char :=
  if '.' ∈ base then '.' :: (base.reverse.takeWhile (fun c => c ≠ '.')).reverse else []

/-- The base name of a path without its extension, in the usual reading: the extension
is the suffix from the final dot on. -/
def baseWithoutExt (path : String) : String :=
  let base := (filepathBase path).data
  String.mk (base.take (base.length - (extChars base).length))

/-- A path element that `filepath.Clean` keeps as it is: not empty, without a slash, and
neither `.` nor `..`. -/
def PlainName (name : List Char) : Prop :=
  name ≠ [] ∧ '/' ∉ name ∧ name ≠ ['.'] ∧ name ≠ ['.', '.']

/-- What `filepath.Join(dir, name)` puts in front of a plain `name`: the cleaned `dir`
followed by a slash, or nothing. -/
def joinLead (dir : List Char) : List Char :=
  if dir = [] then []
  else
    let rooted : Bool := dir.head? = some '/'
    let stack := (splitOnChar '/' dir).foldl (cleanStep rooted) []
    (if rooted then ['/'] else []) ++ (if stack = [] then [] else joinSlash stack.reverse ++ ['/'])

/-- Value of a decimal digit character. -/
def digitValue (c : Char) : Nat := c.toNat - 48

/-- Value of a string of decimal digits, most significant first, continuing from `acc`. -/
def decimalValue (acc : Nat) (ds : List Char) : Nat :=
  ds.foldl (fun a c => a * 10 + digitValue c) acc

/-! ## Sample inputs -/

/-- The archive `sample.ovk` of the scenario: two records of 16 bytes, the second with
size -5, and filler up to 120 bytes. -/
def sampleOvk : List Byte :=
  [2,0,0,0, 100,0,0,0, 20,0,0,0, 1,0,0,0, 200,0,0,0, 251,255,255,255, 50,0,0,0, 2,0,0,0, 0,0,0,0]
    ++ List.replicate 84 7

/-- The index tables of `sample.ovk`. -/
def sampleTables : IndexTables := ⟨[100, -5], [20, 50], [1, 2], [200, 0]⟩

/-- A world holding only `sample.ovk`. -/
def sampleWorld : World := ⟨⟨[("sample.ovk", sampleOvk)], []⟩, [], [], []⟩

/-- An archive of one 12-byte record `{size 5, offset 16, cnt 7}` followed by five bytes. -/
def oneNwk : List Byte := [1,0,0,0, 5,0,0,0, 16,0,0,0, 7,0,0,0, 1,2,3,4,5]

/-- A kind-B archive holding one valid record `{size 2, offset 20, cnt 1, orig 0}`. -/
def dottedOvk : List Byte := [1,0,0,0, 2,0,0,0, 20,0,0,0, 1,0,0,0, 0,0,0,0, 9,9]

/-- A world holding that archive under the name `foo.bar.ovk`. -/
def dottedWorld : World := ⟨⟨[("foo.bar.ovk", dottedOvk)], []⟩, [], [], []⟩

/-- A kind-B archive whose entry count is -1. -/
def negativeOvk : List Byte := [255,255,255,255, 3,0,0,0, 20,0,0,0, 1,0,0,0, 0,0,0,0, 1,2,3]

/-- A world holding that archive as `neg.ovk` and `sample.ovk`. -/
def negativeWorld : World :=
  ⟨⟨[("neg.ovk", negativeOvk), ("sample.ovk", sampleOvk)], []⟩, [], [], []⟩

/-- A kind-A archive declaring three records but holding one and a half. -/
def truncatedNwk : List Byte := [3,0,0,0, 5,0,0,0, 40,0,0,0, 1,0,0,0, 5,0,0,0, 45,0]

/-- A world holding that archive as `cut.nwk`. -/
def truncatedWorld : World := ⟨⟨[("cut.nwk", truncatedNwk)], []⟩, [], [], []⟩

/-- A kind-B archive of two bytes. -/
def tinyWorld : World := ⟨⟨[("tiny.ovk", [7, 0])], []⟩, [], [], []⟩

/-- A kind-B archive of two valid records carrying the same sequence number 1:
`{size 2, offset 36}` and `{size 2, offset 38}`. -/
def dupOvk : List Byte :=
  [2,0,0,0, 2,0,0,0, 36,0,0,0, 1,0,0,0, 0,0,0,0, 2,0,0,0, 38,0,0,0, 1,0,0,0, 0,0,0,0,
    10, 11, 12, 13]

/-- The index tables of `dupOvk`. -/
def dupTables : IndexTables := ⟨[2, 2], [36, 38], [1, 1], [0, 0]⟩

/-- A world holding `dupOvk` as `dup.ovk`. -/
def dupWorld : World := ⟨⟨[("dup.ovk", dupOvk)], []⟩, [], [], []⟩

/-- A kind-A archive of two valid records with sequence numbers 1 and 2:
`{size 2, offset 28}` and `{size 3, offset 30}`. -/
def pairNwk : List Byte :=
  [2,0,0,0, 2,0,0,0, 28,0,0,0, 1,0,0,0, 3,0,0,0, 30,0,0,0, 2,0,0,0, 10, 11, 12, 13, 14]

/-- The index tables of `pairNwk`. -/
def pairTables : IndexTables := ⟨[2, 3], [28, 30], [1, 2], [0, 0]⟩

/-- A world holding `pairNwk` as `pair.nwk`. -/
def pairWorld : World := ⟨⟨[("pair.nwk", pairNwk)], []⟩, [], [], []⟩

/-- A codec that accepts every input and returns it unchanged. -/
def copyCodec : Codec := fun b => some (Stream.full b)

/-! ## The classifier (C9) -/

/-- The model of `strings.Contains` decides substring containment. -/
theorem containsChars_iff (s sub : List Char) :
    containsChars s sub = true ↔ ∃ a b : List Char, s = a ++ sub ++ b := by
  induction s with
  | nil =>
    simp [containsChars]
  | cons c cs ih =>
    simp only [containsChars, Bool.or_eq_true, ih, List.isPrefixOf_iff_prefix]
    constructor
    · rintro (⟨t, ht⟩ | ⟨a, b, hab⟩)
      · exact ⟨[], t, by simp [ht]⟩
      · exact ⟨c :: a, b, by simp [hab]⟩
    · rintro ⟨a, b, hab⟩
      cases a with
      | nil => left; exact ⟨b, by simpa using hab.symm⟩
      | cons x a =>
        right
        simp at hab
        exact ⟨a, b, by simp [hab.2]⟩

/-- The model of `strings.Contains` on strings decides `HasSubstring`. -/
theorem stringsContains_iff (s sub : String) :
    stringsContains s sub = true ↔ HasSubstring s sub := by
  simp [stringsContains, HasSubstring, containsChars_iff]

/-- C9: the kind of a path is decided by case-sensitive substring containment tested in
the order `.nwa`, `.nwk`, `.ovk`, with header-record sizes 0, 12, 16 and extensions wav,
wav, ogg; a path containing none of the three makes `processNWAFile` return after one
diagnostic, with no file opened, no file created and the file system untouched. -/
theorem classify_by_substring_order (inputfile : String) :
    (HasSubstring inputfile ".nwa" → classify inputfile = ⟨fileType.NWA, 0, "wav"⟩) ∧
    (¬ HasSubstring inputfile ".nwa" → HasSubstring inputfile ".nwk" →
      classify inputfile = ⟨fileType.NWK, 12, "wav"⟩) ∧
    (¬ HasSubstring inputfile ".nwa" → ¬ HasSubstring inputfile ".nwk" →
      HasSubstring inputfile ".ovk" → classify inputfile = ⟨fileType.OVK, 16, "ogg"⟩) ∧
    (¬ HasSubstring inputfile ".nwa" → ¬ HasSubstring inputfile ".nwk" →
      ¬ HasSubstring inputfile ".ovk" →
      (classify inputfile).filetype = fileType.NONE ∧
      ∀ (codec : Codec) (inputdir : String) (w : World),
        processNWAFile codec inputdir inputfile w
          = ⟨Exit.returned, w.logDiag (Diag.unrecognized inputfile), 0, [], 0⟩) := by
  simp only [← stringsContains_iff]
  refine ⟨?_, ?_, ?_, ?_⟩
  · intro h; simp [classify, h]
  · intro h1 h2; simp [classify, h1, h2]
  · intro h1 h2 h3; simp [classify, h1, h2, h3]
  · intro h1 h2 h3
    have hc : classify inputfile = ⟨fileType.NONE, 0, ""⟩ := by simp [classify, h1, h2, h3]
    refine ⟨by rw [hc], ?_⟩
    intro codec inputdir w
    simp [processNWAFile, hc]

/-- Witness for C9: `foo.nwa.bak` is single-stream although it does not end in `.nwa`,
`a.nwk.nwa.ovk` is single-stream as well, matching is case-sensitive, and `notes.txt` is
skipped with nothing opened or created. -/
theorem classify_by_substring_order_witness :
    classify "foo.nwa.bak" = ⟨fileType.NWA, 0, "wav"⟩ ∧
    classify "a.ovk.nwk.nwa" = ⟨fileType.NWA, 0, "wav"⟩ ∧
    classify "a.ovk.nwk" = ⟨fileType.NWK, 12, "wav"⟩ ∧
    classify "a.ovk" = ⟨fileType.OVK, 16, "ogg"⟩ ∧
    (classify "foo.NWA").filetype = fileType.NONE ∧
    processNWAFile (fun _ => none) "out" "notes.txt" sampleWorld
      = ⟨Exit.returned, sampleWorld.logDiag (Diag.unrecognized "notes.txt"), 0, [], 0⟩ :=
  ⟨(classify_by_substring_order "foo.nwa.bak").1 ⟨"foo".data, ".bak".data, by decide⟩,
   (classify_by_substring_order "a.ovk.nwk.nwa").1 ⟨"a.ovk.nwk".data, [], by decide⟩,
   by decide, by decide, by decide,
   ((classify_by_substring_order "notes.txt").2.2.2
      (by rw [← stringsContains_iff]; decide) (by rw [← stringsContains_iff]; decide)
      (by rw [← stringsContains_iff]; decide)).2 (fun _ => none) "out" sampleWorld⟩

/-- The two multi-stream results of the classifier. -/
theorem classify_multi (inputfile : String) (h : (classify inputfile).multi) :
    classify inputfile = ⟨fileType.NWK, 12, "wav"⟩ ∨ classify inputfile = ⟨fileType.OVK, 16, "ogg"⟩ := by
  unfold Kind.multi classify at *
  split_ifs at * <;> simp_all

/-- The path of a multi-stream archive holds a dot. -/
theorem multi_has_dot (inputfile : String) (hk : (classify inputfile).multi) :
    '.' ∈ inputfile.data := by
  have h : HasSubstring inputfile ".nwk" ∨ HasSubstring inputfile ".ovk" := by
    unfold Kind.multi classify at hk
    simp only [← stringsContains_iff]
    split_ifs at hk <;> simp_all
  rcases h with ⟨a, b, h⟩ | ⟨a, b, h⟩ <;> rw [h] <;> simp

/-! ## Little-endian reads -/

/-- With four bytes available `binary.Read` decodes and consumes them. -/
theorem binaryRead_long (r : List Byte) (cur : Int) (h : 4 ≤ r.length) :
    binaryRead r cur = (leInt32 (r.take 4), r.drop 4) := by
  simp [binaryRead, h]

/-- With fewer than four bytes `binary.Read` leaves the variable as it was. -/
theorem binaryRead_short (r : List Byte) (cur : Int) (h : r.length < 4) :
    binaryRead r cur = (cur, []) := by
  simp [binaryRead]; omega

/-- Only the first four bytes matter to `leInt32`. -/
theorem leInt32_take (l : List Byte) (k : Nat) (hk : 4 ≤ k) : leInt32 (l.take k) = leInt32 l := by
  have h : ∀ j, j < 4 → (l.take k).getD j 0 = l.getD j 0 := by
    intro j hj
    simp only [List.getD_eq_getElem?_getD]
    rw [List.getElem?_take_of_lt (by omega)]
  simp only [leInt32, leUint32, h 0 (by omega), h 1 (by omega), h 2 (by omega), h 3 (by omega)]

/-- Lists agreeing on their first four positions decode to the same value. -/
theorem leInt32_congr (a b : List Byte) (h : ∀ j, j < 4 → a.getD j 0 = b.getD j 0) :
    leInt32 a = leInt32 b := by
  simp only [leInt32, leUint32, h 0 (by omega), h 1 (by omega), h 2 (by omega), h 3 (by omega)]

/-- The value at position 0 is the value of the leading bytes. -/
theorem int32At_zero (arc : List Byte) : int32At arc 0 = leInt32 arc := by
  simp [int32At]

/-- Reading the entry count of an archive of at least four bytes. -/
theorem binaryRead_count (arc : List Byte) (h : 4 ≤ arc.length) :
    binaryRead arc 0 = (int32At arc 0, arc.drop 4) := by
  rw [binaryRead_long arc 0 h, leInt32_take arc 4 (le_refl 4), int32At_zero]

/-- One `binary.Read` at position `p` of a record buffer of `r` bytes that still holds four
bytes there. -/
theorem binaryRead_in_record (file : List Byte) (r p : Nat) (cur : Int) (hp : p + 4 ≤ r)
    (hlen : r ≤ file.length) :
    binaryRead ((file.take r).drop p) cur = (int32At file p, (file.take r).drop (p + 4)) := by
  rw [binaryRead_long _ _ (by simp; omega)]
  congr 1
  · apply leInt32_congr
    intro j hj
    simp only [List.getD_eq_getElem?_getD, int32At]
    rw [List.getElem?_take_of_lt (by omega), List.getElem?_drop, List.getElem?_drop,
      List.getElem?_take_of_lt (by omega)]
  · rw [List.drop_drop, Nat.add_comm]

/-- The four variables after the four `binary.Read` calls on a record buffer of `r`
bytes taken from `file`. -/
theorem record_fields (file : List Byte) (r : Nat) (hr : r = 12 ∨ r = 16)
    (hlen : r ≤ file.length) :
    (binaryRead (file.take r) 0).1 = int32At file 0 ∧
    (binaryRead (binaryRead (file.take r) 0).2 0).1 = int32At file 4 ∧
    (binaryRead (binaryRead (binaryRead (file.take r) 0).2 0).2 0).1 = int32At file 8 ∧
    (binaryRead (binaryRead (binaryRead (binaryRead (file.take r) 0).2 0).2 0).2 0).1
      = if r = 16 then int32At file 12 else 0 := by
  have e0 : binaryRead (file.take r) 0 = (int32At file 0, (file.take r).drop 4) := by
    have := binaryRead_in_record file r 0 0 (by omega) hlen
    simpa using this
  have e1 := binaryRead_in_record file r 4 0 (by omega) hlen
  have e2 := binaryRead_in_record file r 8 0 (by omega) hlen
  rw [e0, e1, e2]
  refine ⟨rfl, rfl, rfl, ?_⟩
  rcases hr with rfl | rfl
  · rw [binaryRead_short _ _ (by simp)]; simp
  · rw [binaryRead_in_record file 16 12 0 (by omega) hlen]; simp

/-! ## The entry count (C6, C8) -/

/-- The multi-stream branch up to the test of the entry count. -/
theorem processNWAFile_multi (codec : Codec) (inputdir inputfile : String) (w : World)
    (arc : List Byte) (hk : (classify inputfile).multi) (hfile : w.fs.read inputfile = some arc) :
    processNWAFile codec inputdir inputfile w =
      if (binaryRead arc 0).1 ≤ 0 then
        ⟨Exit.returned, (w.openFile inputfile).logDiag (Diag.invalidCount inputfile (binaryRead arc 0).1),
          0, [], 0⟩
      else
        match readIndex (classify inputfile).headblksz (binaryRead arc 0).1.toNat (binaryRead arc 0).2 with
        | Except.error r => ⟨Exit.fatal, w.openFile inputfile, r, [], 0⟩
        | Except.ok t =>
          match runTasks codec
              (dispatchLoop inputdir inputfile (outputStem inputfile) (classify inputfile) t
                (binaryRead arc 0).1.toNat).2
              { w.openFile inputfile with logs := (w.openFile inputfile).logs ++
                (dispatchLoop inputdir inputfile (outputStem inputfile) (classify inputfile) t
                  (binaryRead arc 0).1.toNat).1 } 0 with
          | Run.fatal w3 => ⟨Exit.fatal, w3, (binaryRead arc 0).1.toNat,
              (dispatchLoop inputdir inputfile (outputStem inputfile) (classify inputfile) t
                (binaryRead arc 0).1.toNat).2, (binaryRead arc 0).1.toNat⟩
          | Run.done w3 c =>
            match receiveAll (binaryRead arc 0).1.toNat c with
            | none => ⟨Exit.deadlock, w3, (binaryRead arc 0).1.toNat,
                (dispatchLoop inputdir inputfile (outputStem inputfile) (classify inputfile) t
                  (binaryRead arc 0).1.toNat).2, (binaryRead arc 0).1.toNat⟩
            | some _ => ⟨Exit.returned, w3, (binaryRead arc 0).1.toNat,
                (dispatchLoop inputdir inputfile (outputStem inputfile) (classify inputfile) t
                  (binaryRead arc 0).1.toNat).2, (binaryRead arc 0).1.toNat⟩ := by
  have h1 : (classify inputfile).filetype ≠ fileType.NONE := by
    rcases hk with h | h <;> simp [h]
  have h2 : (classify inputfile).filetype ≠ fileType.NWA := by
    rcases hk with h | h <;> simp [h]
  simp only [processNWAFile, h1, h2, hfile, if_false]

/-- C6: a multi-stream archive whose entry count is `≤ 0` makes `processNWAFile` return
(no fatal exit) after one diagnostic: the archive was opened and its count read, no index
record was read, no task was dispatched, no file was created and the file system is
untouched; the calls for the following files of the batch then run. -/
theorem invalid_count_stops_archive (codec : Codec) (inputdir inputfile : String) (w : World)
    (arc : List Byte) (rest : List String)
    (hk : (classify inputfile).multi) (hfile : w.fs.read inputfile = some arc)
    (hlen : 4 ≤ arc.length) (hcount : int32At arc 0 ≤ 0) :
    processNWAFile codec inputdir inputfile w
      = ⟨Exit.returned,
          (w.openFile inputfile).logDiag (Diag.invalidCount inputfile (int32At arc 0)), 0, [], 0⟩ ∧
    (processNWAFile codec inputdir inputfile w).world.fs = w.fs ∧
    (processNWAFile codec inputdir inputfile w).world.opened = w.opened ++ [inputfile] ∧
    (processNWAFile codec inputdir inputfile w).world.created = w.created ∧
    processFiles codec inputdir (inputfile :: rest) w
      = processFiles codec inputdir rest
          ((w.openFile inputfile).logDiag (Diag.invalidCount inputfile (int32At arc 0))) := by
  have h := processNWAFile_multi codec inputdir inputfile w arc hk hfile
  rw [binaryRead_count arc hlen] at h
  simp only [hcount, if_true] at h
  refine ⟨h, ?_, ?_, ?_, ?_⟩
  · rw [h]; rfl
  · rw [h]; rfl
  · rw [h]; rfl
  · simp [processFiles, h]

/-- Witness for C6: `neg.ovk` has count -1; the call returns and the batch goes on. -/
theorem invalid_count_stops_archive_witness :
    int32At negativeOvk 0 = -1 ∧
    processNWAFile (fun _ => none) "out" "neg.ovk" negativeWorld
      = ⟨Exit.returned,
          (negativeWorld.openFile "neg.ovk").logDiag
            (Diag.invalidCount "neg.ovk" (int32At negativeOvk 0)), 0, [], 0⟩ ∧
    (processNWAFile (fun _ => none) "out" "neg.ovk" negativeWorld).world.fs = negativeWorld.fs ∧
    (processNWAFile (fun _ => none) "out" "neg.ovk" negativeWorld).world.opened
      = negativeWorld.opened ++ ["neg.ovk"] ∧
    (processNWAFile (fun _ => none) "out" "neg.ovk" negativeWorld).world.created
      = negativeWorld.created ∧
    processFiles (fun _ => none) "out" ("neg.ovk" :: ["a.txt"]) negativeWorld
      = processFiles (fun _ => none) "out" ["a.txt"]
          ((negativeWorld.openFile "neg.ovk").logDiag
            (Diag.invalidCount "neg.ovk" (int32At negativeOvk 0))) :=
  ⟨by decide, invalid_count_stops_archive (fun _ => none) "out" "neg.ovk" negativeWorld
    negativeOvk ["a.txt"] (by decide) (by decide) (by decide) (by decide)⟩

/-- C8, amended: a multi-stream archive of fewer than four bytes leaves `indexcount` at 0
(the error of `binary.Read` is not inspected), so `processNWAFile` reports an invalid
count, returns without a fatal exit, dispatches nothing, creates nothing, and the batch
goes on. -/
theorem short_count_skips_archive (codec : Codec) (inputdir inputfile : String) (w : World)
    (arc : List Byte) (rest : List String)
    (hk : (classify inputfile).multi) (hfile : w.fs.read inputfile = some arc)
    (hlen : arc.length < 4) :
    processNWAFile codec inputdir inputfile w
      = ⟨Exit.returned,
          (w.openFile inputfile).logDiag (Diag.invalidCount inputfile 0), 0, [], 0⟩ ∧
    (processNWAFile codec inputdir inputfile w).world.fs = w.fs ∧
    (processNWAFile codec inputdir inputfile w).world.created = w.created ∧
    processFiles codec inputdir (inputfile :: rest) w
      = processFiles codec inputdir rest
          ((w.openFile inputfile).logDiag (Diag.invalidCount inputfile 0)) := by
  have h := processNWAFile_multi codec inputdir inputfile w arc hk hfile
  rw [binaryRead_short arc 0 hlen] at h
  simp only [le_refl, if_true] at h
  refine ⟨h, ?_, ?_, ?_⟩
  · rw [h]; rfl
  · rw [h]; rfl
  · simp [processFiles, h]

/-- C8 as stated fails on a two-byte `tiny.ovk`: the call returns, it is not fatal. -/
theorem short_count_is_not_fatal :
    (processNWAFile (fun _ => none) "out" "tiny.ovk" tinyWorld).exit = Exit.returned ∧
    (processNWAFile (fun _ => none) "out" "tiny.ovk" tinyWorld).exit ≠ Exit.fatal ∧
    (processNWAFile (fun _ => none) "out" "tiny.ovk" tinyWorld).world.logs
      = [Diag.invalidCount "tiny.ovk" 0] := by
  decide

/-- Witness for C8, amended, on the two-byte `tiny.ovk`. -/
theorem short_count_skips_archive_witness :
    processNWAFile (fun _ => none) "out" "tiny.ovk" tinyWorld
      = ⟨Exit.returned,
          (tinyWorld.openFile "tiny.ovk").logDiag (Diag.invalidCount "tiny.ovk" 0), 0, [], 0⟩ ∧
    (processNWAFile (fun _ => none) "out" "tiny.ovk" tinyWorld).world.fs = tinyWorld.fs ∧
    (processNWAFile (fun _ => none) "out" "tiny.ovk" tinyWorld).world.created = tinyWorld.created ∧
    processFiles (fun _ => none) "out" ("tiny.ovk" :: ["a.txt"]) tinyWorld
      = processFiles (fun _ => none) "out" ["a.txt"]
          ((tinyWorld.openFile "tiny.ovk").logDiag (Diag.invalidCount "tiny.ovk" 0)) :=
  short_count_skips_archive (fun _ => none) "out" "tiny.ovk" tinyWorld [7, 0] ["a.txt"]
    (by decide) (by decide) (by decide)

/-! ## The index loop (C7, C4) -/

/-- A reader too short for `n` records makes the index loop fail after the complete
records it holds. -/
theorem readIndex_short (r : Nat) (hr : 0 < r) (n : Nat) (file : List Byte)
    (hlen : file.length < n * r) :
    readIndex r n file = Except.error (file.length / r) := by
  induction n generalizing file with
  | zero => simp at hlen
  | succ n ih =>
    unfold readIndex
    by_cases hb : file.length < r
    · have : (List.take r file).length ≠ r := by simp; omega
      simp only [this, ne_eq, not_false_eq_true, if_true, not_true_eq_false]
      rw [Nat.div_eq_of_lt hb]
    · have hb2 : r ≤ file.length := by omega
      have : (List.take r file).length = r := by simp; omega
      have hlen2 : (file.drop r).length < n * r := by
        simp; rw [Nat.succ_mul] at hlen; omega
      simp only [this, ne_eq, not_true_eq_false, if_false, ih _ hlen2]
      congr 1
      simp only [List.length_drop]
      have := Nat.div_eq_sub_div hr hb2
      omega

/-- C7: a multi-stream archive with entry count `n > 0` and fewer than `4 + n * r` bytes
ends `processNWAFile` in fatal termination during the index loop: the complete records
were read, but no task is dispatched, no file is created and the file system is
untouched. -/
theorem truncated_index_is_fatal (codec : Codec) (inputdir inputfile : String) (w : World)
    (arc : List Byte) (n : Nat)
    (hk : (classify inputfile).multi) (hfile : w.fs.read inputfile = some arc)
    (hlen4 : 4 ≤ arc.length) (hcount : int32At arc 0 = n) (hn : 0 < n)
    (hshort : arc.length < 4 + n * (classify inputfile).headblksz) :
    processNWAFile codec inputdir inputfile w
      = ⟨Exit.fatal, w.openFile inputfile, (arc.length - 4) / (classify inputfile).headblksz, [], 0⟩ ∧
    (processNWAFile codec inputdir inputfile w).exit = Exit.fatal ∧
    (processNWAFile codec inputdir inputfile w).dispatched = [] ∧
    (processNWAFile codec inputdir inputfile w).world.created = w.created ∧
    (processNWAFile codec inputdir inputfile w).world.fs = w.fs := by
  have h := processNWAFile_multi codec inputdir inputfile w arc hk hfile
  rw [binaryRead_count arc hlen4, hcount] at h
  have hr : 0 < (classify inputfile).headblksz := by
    rcases classify_multi inputfile hk with h' | h' <;> simp [h']
  have hn' : ¬ ((n : Int) ≤ 0) := by omega
  simp only [hn', if_false, Int.toNat_ofNat] at h
  rw [readIndex_short _ hr n (arc.drop 4) (by simp; omega)] at h
  simp only [List.length_drop] at h
  refine ⟨h, ?_, ?_, ?_, ?_⟩ <;> rw [h] <;> rfl

/-- Witness for C7: `cut.nwk` declares three records and holds one complete record. -/
theorem truncated_index_is_fatal_witness :
    processNWAFile (fun _ => none) "out" "cut.nwk" truncatedWorld
      = ⟨Exit.fatal, truncatedWorld.openFile "cut.nwk",
          (truncatedNwk.length - 4) / (classify "cut.nwk").headblksz, [], 0⟩ ∧
    (processNWAFile (fun _ => none) "out" "cut.nwk" truncatedWorld).exit = Exit.fatal ∧
    (processNWAFile (fun _ => none) "out" "cut.nwk" truncatedWorld).dispatched = [] ∧
    (processNWAFile (fun _ => none) "out" "cut.nwk" truncatedWorld).world.created
      = truncatedWorld.created ∧
    (processNWAFile (fun _ => none) "out" "cut.nwk" truncatedWorld).world.fs = truncatedWorld.fs :=
  truncated_index_is_fatal (fun _ => none) "out" "cut.nwk" truncatedWorld truncatedNwk 3
    (by decide) (by decide) (by decide) (by decide) (by decide) (by decide)

/-- The index loop on a reader long enough for `n` records of `r` bytes. -/
theorem readIndex_layout (r : Nat) (hr : r = 12 ∨ r = 16) (n : Nat) (file : List Byte)
    (hlen : n * r ≤ file.length) :
    ∃ t : IndexTables, readIndex r n file = Except.ok t ∧
      t.tblsiz.length = n ∧ t.tbloff.length = n ∧ t.tblcnt.length = n ∧
      t.tblorigsiz.length = n ∧
      ∀ i, i < n →
        t.tblsiz.getD i 0 = int32At file (i * r) ∧
        t.tbloff.getD i 0 = int32At file (i * r + 4) ∧
        t.tblcnt.getD i 0 = int32At file (i * r + 8) ∧
        t.tblorigsiz.getD i 0 = if r = 16 then int32At file (i * r + 12) else 0 := by
  induction n generalizing file with
  | zero => exact ⟨⟨[], [], [], []⟩, rfl, rfl, rfl, rfl, rfl, by intro i hi; omega⟩
  | succ n ih =>
    have hr1 : r ≤ file.length := by rw [Nat.succ_mul] at hlen; omega
    have hrest : n * r ≤ (file.drop r).length := by
      rw [Nat.succ_mul] at hlen; simp; omega
    obtain ⟨t, ht, h1, h2, h3, h4, hi⟩ := ih (file.drop r) hrest
    obtain ⟨f1, f2, f3, f4⟩ := record_fields file r hr hr1
    have hb : (List.take r file).length = r := by simp; omega
    refine ⟨⟨int32At file 0 :: t.tblsiz, int32At file 4 :: t.tbloff, int32At file 8 :: t.tblcnt,
      (if r = 16 then int32At file 12 else 0) :: t.tblorigsiz⟩, ?_, by simp [h1], by simp [h2],
      by simp [h3], by simp [h4], ?_⟩
    · unfold readIndex
      simp only [hb, ne_eq, not_true_eq_false, if_false, ht, f1, f2, f3, f4]
    · intro i hlt
      cases i with
      | zero => simp
      | succ i =>
        have := hi i (by omega)
        have hd : ∀ q, int32At (file.drop r) q = int32At file (r + q) := by
          intro q; simp [int32At, List.drop_drop, Nat.add_comm]
        simp only [List.getD_cons_succ, this, hd]
        have e : (i + 1) * r = r + i * r := by rw [Nat.succ_mul, Nat.add_comm]
        simp only [e, Nat.add_assoc, and_self]

/-- C4: the index reader on a multi-stream archive with count `n` and at least
`4 + n * r` bytes (`r` = 12 for kind-A, 16 for kind-B) yields four slices of length `n`
whose entries at `i` are the signed little-endian values at `4 + i*r`, `4 + i*r + 4`,
`4 + i*r + 8`, and for the fourth slice the value at `4 + i*r + 12` for kind-B and `0`
for kind-A. -/
theorem index_reader_layout (inputfile : String) (arc : List Byte) (n : Nat)
    (hk : (classify inputfile).multi) (hcount : int32At arc 0 = n)
    (hlen : 4 + n * (classify inputfile).headblksz ≤ arc.length) :
    ((classify inputfile).filetype = fileType.NWK ∧ (classify inputfile).headblksz = 12 ∨
     (classify inputfile).filetype = fileType.OVK ∧ (classify inputfile).headblksz = 16) ∧
    ∃ t : IndexTables,
      readIndex (classify inputfile).headblksz (binaryRead arc 0).1.toNat (binaryRead arc 0).2
        = Except.ok t ∧
      t.tblsiz.length = n ∧ t.tbloff.length = n ∧ t.tblcnt.length = n ∧
      t.tblorigsiz.length = n ∧
      ∀ i, i < n →
        t.tblsiz.getD i 0 = int32At arc (4 + i * (classify inputfile).headblksz) ∧
        t.tbloff.getD i 0 = int32At arc (4 + i * (classify inputfile).headblksz + 4) ∧
        t.tblcnt.getD i 0 = int32At arc (4 + i * (classify inputfile).headblksz + 8) ∧
        t.tblorigsiz.getD i 0 =
          if (classify inputfile).filetype = fileType.OVK
          then int32At arc (4 + i * (classify inputfile).headblksz + 12) else 0 := by
  have hr : (classify inputfile).filetype = fileType.NWK ∧ (classify inputfile).headblksz = 12 ∨
     (classify inputfile).filetype = fileType.OVK ∧ (classify inputfile).headblksz = 16 := by
    rcases classify_multi inputfile hk with h | h <;> simp [h]
  refine ⟨hr, ?_⟩
  have hr2 : (classify inputfile).headblksz = 12 ∨ (classify inputfile).headblksz = 16 := by
    rcases hr with h | h
    · exact Or.inl h.2
    · exact Or.inr h.2
  have h16 : ((classify inputfile).headblksz = 16) = ((classify inputfile).filetype = fileType.OVK) := by
    rcases hr with h | h <;> simp [h.1, h.2]
  rw [binaryRead_count arc (by omega), hcount]
  simp only [Int.toNat_ofNat]
  obtain ⟨t, ht, h1, h2, h3, h4, hi⟩ :=
    readIndex_layout (classify inputfile).headblksz hr2 n (arc.drop 4) (by simp; omega)
  refine ⟨t, ht, h1, h2, h3, h4, ?_⟩
  intro i hlt
  have hd : ∀ q, int32At (arc.drop 4) q = int32At arc (4 + q) := by
    intro q; simp [int32At, List.drop_drop, Nat.add_comm]
  have := hi i hlt
  simp only [hd, h16] at this
  simpa only [Nat.add_assoc] using this

/-- Witness for C4: the one-record kind-A archive `oneNwk`. -/
theorem index_reader_layout_witness :
    ((classify "a.nwk").filetype = fileType.NWK ∧ (classify "a.nwk").headblksz = 12 ∨
     (classify "a.nwk").filetype = fileType.OVK ∧ (classify "a.nwk").headblksz = 16) ∧
    ∃ t : IndexTables,
      readIndex (classify "a.nwk").headblksz (binaryRead oneNwk 0).1.toNat (binaryRead oneNwk 0).2
        = Except.ok t ∧
      t.tblsiz.length = 1 ∧ t.tbloff.length = 1 ∧ t.tblcnt.length = 1 ∧
      t.tblorigsiz.length = 1 ∧
      ∀ i, i < 1 →
        t.tblsiz.getD i 0 = int32At oneNwk (4 + i * (classify "a.nwk").headblksz) ∧
        t.tbloff.getD i 0 = int32At oneNwk (4 + i * (classify "a.nwk").headblksz + 4) ∧
        t.tblcnt.getD i 0 = int32At oneNwk (4 + i * (classify "a.nwk").headblksz + 8) ∧
        t.tblorigsiz.getD i 0 =
          if (classify "a.nwk").filetype = fileType.OVK
          then int32At oneNwk (4 + i * (classify "a.nwk").headblksz + 12) else 0 :=
  index_reader_layout "a.nwk" oneNwk 1 (by decide) (by decide) (by decide)

/-! ## The stream extractor (C3) -/

/-- Reading back the file just written. -/
theorem FS.read_write_same (fs : FS) (p : String) (data : List Byte) :
    (fs.write p data).read p = some data := by
  simp [FS.read, FS.write, List.lookup]

/-- Writing a file leaves every other path as it was. -/
theorem FS.read_write_other (fs : FS) (p q : String) (data : List Byte) (h : q ≠ p) :
    (fs.write p data).read q = fs.read q := by
  have hb : (q == p) = false := by simpa using h
  simp [FS.read, FS.write, List.lookup, hb]

/-- The bytes `io.CopyN` obtains after a seek to `offset ≥ 0` when the range lies within
the file: exactly `size` bytes. -/
theorem range_length (arc : List Byte) (offset size : Int) (ho : 0 ≤ offset) (hs : 0 ≤ size)
    (hfit : offset + size ≤ arc.length) :
    (((arc.drop offset.toNat).take size.toNat).length : Int) = size := by
  simp only [List.length_take, List.length_drop]
  omega

/-- Function `doDecode` on an entry that is not kind-A whose range lies in the archive. -/
theorem doDecode_verbatim (codec : Codec) (filetype : fileType) (filename datafile : String)
    (offset size : Int) (w : World) (c : Nat) (arc : List Byte)
    (hft : filetype ≠ fileType.NWK)
    (hfile : w.fs.read datafile = some arc) (ho : 0 ≤ offset) (hs : 0 ≤ size)
    (hfit : offset + size ≤ arc.length) (hcreate : filename ∉ w.fs.denied) :
    doDecode codec filetype filename datafile offset size w c
      = Run.done ((w.openFile datafile).createFile filename
          ((arc.drop offset.toNat).take size.toNat)) (c + 1) := by
  have hlen := range_length arc offset size ho hs hfit
  have hneg : ¬ offset < 0 := by omega
  have hd : filename ∉ (w.openFile datafile).fs.denied := hcreate
  simp only [doDecode, hfile, hneg, if_false, hlen, ne_eq, not_true_eq_false, hft,
    createAndCopy, hd]

/-- C3: round trip for kind-B.  For an archive stored at `datafile` and an entry with
`offset > 0`, `size > 0` and `offset + size` within the archive, `doDecode` finishes, sends
its token, and leaves in the destination file exactly the `size` archive bytes from
position `offset` on, unmodified. -/
theorem ovk_round_trip (codec : Codec) (filename datafile : String) (offset size : Int)
    (w : World) (c : Nat) (arc : List Byte)
    (hfile : w.fs.read datafile = some arc) (ho : 0 < offset) (hs : 0 < size)
    (hfit : offset + size ≤ arc.length) (hcreate : filename ∉ w.fs.denied) :
    ∃ w1 : World,
      doDecode codec fileType.OVK filename datafile offset size w c = Run.done w1 (c + 1) ∧
      w1.fs.read filename = some ((arc.drop offset.toNat).take size.toNat) ∧
      (((arc.drop offset.toNat).take size.toNat).length : Int) = size ∧
      (∀ j : Nat, (j : Int) < size →
        ((arc.drop offset.toNat).take size.toNat)[j]? = arc[offset.toNat + j]?) ∧
      w1.created = w.created ++ [filename] := by
  refine ⟨_, doDecode_verbatim codec fileType.OVK filename datafile offset size w c arc
    (by decide) hfile (le_of_lt ho) (le_of_lt hs) hfit hcreate, ?_, ?_, ?_, rfl⟩
  · exact FS.read_write_same _ _ _
  · exact range_length arc offset size (le_of_lt ho) (le_of_lt hs) hfit
  · intro j hj
    rw [List.getElem?_take_of_lt (by omega), List.getElem?_drop]

set_option maxRecDepth 100000 in
/-- Witness for C3 on `sample.ovk`: the entry `{size 100, offset 20, seq 1}` puts archive
bytes `[20, 120)` into `sample-1.ogg`. -/
theorem ovk_round_trip_witness :
    ∃ w1 : World,
      doDecode (fun _ => none) fileType.OVK "sample-1.ogg" "sample.ovk" 20 100 sampleWorld 0
        = Run.done w1 1 ∧
      w1.fs.read "sample-1.ogg" = some ((sampleOvk.drop 20).take 100) ∧
      ((((sampleOvk.drop (20 : Int).toNat).take (100 : Int).toNat).length : Nat) : Int) = 100 ∧
      (∀ j : Nat, (j : Int) < 100 →
        ((sampleOvk.drop (20 : Int).toNat).take (100 : Int).toNat)[j]?
          = sampleOvk[(20 : Int).toNat + j]?) ∧
      w1.created = sampleWorld.created ++ ["sample-1.ogg"] :=
  ovk_round_trip (fun _ => none) "sample-1.ogg" "sample.ovk" 20 100 sampleWorld 0 sampleOvk
    (by decide) (by decide) (by decide) (by decide) (by decide)

/-- Function `doDecode` on a readable range whose payload is obtained in full. -/
theorem doDecode_done (codec : Codec) (filetype : fileType) (filename datafile : String)
    (offset size : Int) (w : World) (c : Nat) (arc bytes : List Byte)
    (hfile : w.fs.read datafile = some arc) (ho : 0 ≤ offset) (hs : 0 ≤ size)
    (hfit : offset + size ≤ arc.length) (hcreate : filename ∉ w.fs.denied)
    (hpay : (if filetype = fileType.NWK
        then codec ((arc.drop offset.toNat).take size.toNat)
        else some (Stream.full ((arc.drop offset.toNat).take size.toNat)))
      = some (Stream.full bytes)) :
    doDecode codec filetype filename datafile offset size w c
      = Run.done ((w.openFile datafile).createFile filename bytes) (c + 1) := by
  have hlen := range_length arc offset size ho hs hfit
  have hneg : ¬ offset < 0 := by omega
  have hd : filename ∉ (w.openFile datafile).fs.denied := hcreate
  simp only [doDecode, hfile, hneg, if_false, hlen, ne_eq, not_true_eq_false, hpay,
    createAndCopy, hd]

/-- A goroutine that finishes has sent exactly one token. -/
theorem doDecode_sent (codec : Codec) (filetype : fileType) (filename datafile : String)
    (offset size : Int) (w w2 : World) (c c2 : Nat)
    (h : doDecode codec filetype filename datafile offset size w c = Run.done w2 c2) :
    c2 = c + 1 := by
  simp only [doDecode] at h
  repeat' split at h
  all_goals (cases h; try rfl)

/-! ## The dispatch loop (C5) -/

/-- The loop body on a valid position builds the task of that position. -/
theorem dispatchEntry_valid (inputdir inputfile : String) (k : Kind) (t : IndexTables) (i : Nat)
    (h : validAt t i) :
    dispatchEntry inputdir inputfile (outputStem inputfile) k t i
      = Sum.inr (taskFor inputdir inputfile k t i) := by
  have h' : ¬ (t.tbloff.getD i 0 ≤ 0 ∨ t.tblsiz.getD i 0 ≤ 0) := by
    unfold validAt at h; omega
  simp only [dispatchEntry, h', if_false, taskFor]

/-- The loop body on an invalid position only writes a diagnostic. -/
theorem dispatchEntry_invalid (inputdir inputfile outfilename : String) (k : Kind)
    (t : IndexTables) (i : Nat) (h : ¬ validAt t i) :
    dispatchEntry inputdir inputfile outfilename k t i
      = Sum.inl (Diag.invalidEntry inputfile i (t.tblcnt.getD i 0) (t.tbloff.getD i 0)
          (t.tblsiz.getD i 0)) := by
  have h' : t.tbloff.getD i 0 ≤ 0 ∨ t.tblsiz.getD i 0 ≤ 0 := by
    unfold validAt at h; omega
  simp only [dispatchEntry, h', if_true]

/-- The tasks accumulated by the dispatch loop over a list of positions. -/
theorem dispatch_foldl_tasks (inputdir inputfile : String) (k : Kind) (t : IndexTables)
    (l : List Nat) (st : List Diag × List Task) :
    (l.foldl (dispatchStep inputdir inputfile (outputStem inputfile) k t) st).2
      = st.2 ++ (l.filter (fun i => decide (validAt t i))).map (taskFor inputdir inputfile k t) := by
  induction l generalizing st with
  | nil => simp
  | cons i l ih =>
    rw [List.foldl_cons, ih]
    by_cases h : validAt t i
    · simp [dispatchStep, dispatchEntry_valid inputdir inputfile k t i h, h]
    · simp [dispatchStep, dispatchEntry_invalid inputdir inputfile _ k t i h, h]

/-- The tasks started by the dispatch loop are those of the valid positions, in order. -/
theorem dispatchLoop_tasks (inputdir inputfile : String) (k : Kind) (t : IndexTables) (n : Nat) :
    (dispatchLoop inputdir inputfile (outputStem inputfile) k t n).2
      = (validPositions t n).map (taskFor inputdir inputfile k t) := by
  simp [dispatchLoop, dispatch_foldl_tasks, validPositions]

/-- C5: position `i` is dispatched exactly when `offset[i] > 0` and `size[i] > 0`, whatever
the other two fields hold; offset 0 and size 0 are each rejected; and every valid position
below `n` has its task, carrying its own offset and size, among the tasks started by the
loop, which are as many as the valid positions. -/
theorem entry_dispatched_iff_valid (inputdir inputfile : String) (k : Kind) (t : IndexTables)
    (n i : Nat) :
    ((∃ task, dispatchEntry inputdir inputfile (outputStem inputfile) k t i = Sum.inr task)
      ↔ (0 < t.tbloff.getD i 0 ∧ 0 < t.tblsiz.getD i 0)) ∧
    (∀ cnt orig : List Int,
      (dispatchEntry inputdir inputfile (outputStem inputfile) k
          ⟨t.tblsiz, t.tbloff, cnt, orig⟩ i).isRight
        = (dispatchEntry inputdir inputfile (outputStem inputfile) k t i).isRight) ∧
    (t.tbloff.getD i 0 = 0 →
      (dispatchEntry inputdir inputfile (outputStem inputfile) k t i).isLeft = true) ∧
    (t.tblsiz.getD i 0 = 0 →
      (dispatchEntry inputdir inputfile (outputStem inputfile) k t i).isLeft = true) ∧
    (dispatchLoop inputdir inputfile (outputStem inputfile) k t n).2.length
      = (validPositions t n).length ∧
    (∀ j, j < n → validAt t j →
      taskFor inputdir inputfile k t j
        ∈ (dispatchLoop inputdir inputfile (outputStem inputfile) k t n).2 ∧
      (taskFor inputdir inputfile k t j).offset = t.tbloff.getD j 0 ∧
      (taskFor inputdir inputfile k t j).size = t.tblsiz.getD j 0) := by
  refine ⟨?_, ?_, ?_, ?_, ?_, ?_⟩
  · by_cases h : validAt t i
    · simp only [dispatchEntry_valid inputdir inputfile k t i h]
      exact ⟨fun _ => h, fun _ => ⟨_, rfl⟩⟩
    · simp only [dispatchEntry_invalid inputdir inputfile _ k t i h]
      constructor
      · rintro ⟨task, ht⟩; cases ht
      · intro h'; exact absurd h' h
  · intro cnt orig
    by_cases h : validAt t i
    · have h2 : validAt ⟨t.tblsiz, t.tbloff, cnt, orig⟩ i := h
      rw [dispatchEntry_valid _ _ _ _ _ h, dispatchEntry_valid _ _ _ _ _ h2]; rfl
    · have h2 : ¬ validAt ⟨t.tblsiz, t.tbloff, cnt, orig⟩ i := h
      rw [dispatchEntry_invalid _ _ _ _ _ _ h, dispatchEntry_invalid _ _ _ _ _ _ h2]; rfl
  · intro h0
    rw [dispatchEntry_invalid _ _ _ _ _ _ (by unfold validAt; omega)]; rfl
  · intro h0
    rw [dispatchEntry_invalid _ _ _ _ _ _ (by unfold validAt; omega)]; rfl
  · rw [dispatchLoop_tasks, List.length_map]
  · intro j hj hv
    refine ⟨?_, rfl, rfl⟩
    rw [dispatchLoop_tasks]
    apply List.mem_map_of_mem
    simp [validPositions, hj, hv]

/-- Witness for C5 on the tables of `sample.ovk`: position 0 is dispatched with offset 20
and size 100 although position 1 is rejected. -/
theorem entry_dispatched_iff_valid_witness :
    validAt sampleTables 0 ∧ ¬ validAt sampleTables 1 ∧
    taskFor "out" "sample.ovk" (classify "sample.ovk") sampleTables 0
      ∈ (dispatchLoop "out" "sample.ovk" (outputStem "sample.ovk") (classify "sample.ovk")
          sampleTables 2).2 ∧
    (taskFor "out" "sample.ovk" (classify "sample.ovk") sampleTables 0).offset = 20 ∧
    (taskFor "out" "sample.ovk" (classify "sample.ovk") sampleTables 0).size = 100 :=
  ⟨by decide, by decide,
    (entry_dispatched_iff_valid "out" "sample.ovk" (classify "sample.ovk") sampleTables 2
      0).2.2.2.2.2 0 (by decide) (by decide)⟩

/-- The valid positions below `n` are at most `n`. -/
theorem validPositions_length_le (t : IndexTables) (n : Nat) :
    (validPositions t n).length ≤ n := by
  have := List.length_filter_le (fun i => decide (validAt t i)) (List.range n)
  simpa [validPositions] using this

/-- Once the index of a multi-stream archive has been read, the call starts the tasks of
the valid positions and its receive loop is set to `indexcount` receives, however the
tasks end. -/
theorem processNWAFile_dispatched (codec : Codec) (inputdir inputfile : String) (w : World)
    (arc : List Byte) (n : Nat) (t : IndexTables)
    (hk : (classify inputfile).multi) (hfile : w.fs.read inputfile = some arc)
    (hlen : 4 ≤ arc.length) (hcount : int32At arc 0 = n) (hn : 0 < n)
    (hidx : readIndex (classify inputfile).headblksz n (arc.drop 4) = Except.ok t) :
    (processNWAFile codec inputdir inputfile w).dispatched
      = (validPositions t n).map (taskFor inputdir inputfile (classify inputfile) t) ∧
    (processNWAFile codec inputdir inputfile w).awaited = n ∧
    (processNWAFile codec inputdir inputfile w).recordsRead = n := by
  have h := processNWAFile_multi codec inputdir inputfile w arc hk hfile
  rw [binaryRead_count arc hlen, hcount] at h
  have hn' : ¬ ((n : Int) ≤ 0) := by omega
  simp only [hn', if_false, Int.toNat_ofNat, hidx, dispatchLoop_tasks] at h
  rw [h]
  split
  · exact ⟨rfl, rfl, rfl⟩
  · split <;> exact ⟨rfl, rfl, rfl⟩

/-! ## Destination names (C10) -/

/-- The first piece of a split is the text before the first separator. -/
theorem splitOnChar_head (sep : Char) (l : List Char) :
    ∃ rest, splitOnChar sep l = l.takeWhile (fun c => c ≠ sep) :: rest := by
  induction l with
  | nil => exact ⟨[], rfl⟩
  | cons c cs ih =>
    obtain ⟨rest, hrest⟩ := ih
    by_cases h : c = sep
    · exact ⟨splitOnChar sep cs, by simp [splitOnChar, h]⟩
    · exact ⟨rest, by simp [splitOnChar, h, hrest]⟩

/-- Line 91 keeps the base name up to its first dot. -/
theorem outputStem_eq (inputfile : String) :
    outputStem inputfile
      = String.mk ((filepathBase inputfile).data.takeWhile (fun c => c ≠ '.')) := by
  obtain ⟨rest, h⟩ := splitOnChar_head '.' (filepathBase inputfile).data
  simp [outputStem, stringsSplit, h]

/-- Cutting a text at its only dot: what precedes the first dot is what remains once the
suffix from the last dot on is removed. -/
theorem takeWhile_eq_take_of_one_dot (b : List Char) (h : b.count '.' ≤ 1) :
    b.takeWhile (fun c => c ≠ '.') = b.take (b.length - (extChars b).length) := by
  have hall : ∀ l : List Char, '.' ∉ l → ∀ c ∈ l, (decide (c ≠ '.')) = true := by
    intro l hl c hc
    have : c ≠ '.' := fun e => hl (by rw [← e]; exact hc)
    simpa using this
  by_cases hd : '.' ∈ b
  · obtain ⟨s, t, rfl⟩ := List.append_of_mem hd
    simp only [List.count_append, List.count_cons_self] at h
    have hs : '.' ∉ s := List.count_eq_zero.1 (by omega)
    have ht : '.' ∉ t := List.count_eq_zero.1 (by omega)
    have htr : '.' ∉ t.reverse := fun e => ht (List.mem_reverse.1 e)
    have hext : extChars (s ++ '.' :: t) = '.' :: t := by
      simp only [extChars, hd, if_true, List.reverse_append, List.reverse_cons,
        List.append_assoc, List.singleton_append]
      rw [List.takeWhile_append_of_pos (hall _ htr)]
      simp [List.takeWhile]
    rw [hext, List.takeWhile_append_of_pos (hall _ hs)]
    have hlen : (s ++ '.' :: t).length - ('.' :: t).length = s.length := by
      simp only [List.length_append, List.length_cons]; omega
    rw [hlen, List.take_left']
    · simp [List.takeWhile]
    · rfl
  · simp only [extChars, hd, if_false, List.length_nil, Nat.sub_zero, List.take_length]
    exact List.takeWhile_eq_self_iff.2 (hall b hd)

/-- When the base name of the archive holds at most one dot, the stem kept by line 91 is
the base name without its extension. -/
theorem outputStem_eq_baseWithoutExt (inputfile : String)
    (h : (filepathBase inputfile).data.count '.' ≤ 1) :
    outputStem inputfile = baseWithoutExt inputfile := by
  rw [outputStem_eq, baseWithoutExt, takeWhile_eq_take_of_one_dot _ h]

/-- C10, amended: every task started for a multi-stream archive has as destination the
input directory joined with `<stem>-<cnt>.<ext>`, where `<stem>` is the archive's base
name up to its first dot, `<cnt>` the decimal rendering of the `sequenceNumber` field of
the task's own index entry, and `<ext>` is wav for kind-A and ogg for kind-B; the stem is
the base name without its extension when the base name holds at most one dot. -/
theorem destination_path (codec : Codec) (inputdir inputfile : String) (w : World)
    (arc : List Byte) (n : Nat) (t : IndexTables)
    (hk : (classify inputfile).multi) (hfile : w.fs.read inputfile = some arc)
    (hlen : 4 ≤ arc.length) (hcount : int32At arc 0 = n) (hn : 0 < n)
    (hidx : readIndex (classify inputfile).headblksz n (arc.drop 4) = Except.ok t) :
    (processNWAFile codec inputdir inputfile w).dispatched.map (fun task => task.filename)
      = (validPositions t n).map (fun i =>
          filepathJoin inputdir
            (String.mk ((filepathBase inputfile).data.takeWhile (fun c => c ≠ '.'))
              ++ "-" ++ toString (t.tblcnt.getD i 0) ++ "."
              ++ (if (classify inputfile).filetype = fileType.NWK then "wav" else "ogg"))) ∧
    ((filepathBase inputfile).data.count '.' ≤ 1 →
      String.mk ((filepathBase inputfile).data.takeWhile (fun c => c ≠ '.'))
        = baseWithoutExt inputfile) := by
  refine ⟨?_, fun h1 => by rw [← outputStem_eq]; exact outputStem_eq_baseWithoutExt inputfile h1⟩
  rw [(processNWAFile_dispatched codec inputdir inputfile w arc n t hk hfile hlen hcount hn hidx).1]
  have hext : (classify inputfile).outext
      = (if (classify inputfile).filetype = fileType.NWK then "wav" else "ogg") := by
    rcases classify_multi inputfile hk with h | h <;> simp [h]
  simp only [List.map_map]
  apply List.map_congr_left
  intro i _
  simp only [Function.comp, taskFor, entryName, outputStem_eq, ← hext]

set_option maxRecDepth 100000 in
/-- Witness for C10 on `foo.bar.ovk`. -/
theorem destination_path_witness :
    (processNWAFile (fun _ => none) "out" "foo.bar.ovk" dottedWorld).dispatched.map
        (fun task => task.filename)
      = (validPositions ⟨[2], [20], [1], [0]⟩ 1).map (fun i =>
          filepathJoin "out"
            (String.mk ((filepathBase "foo.bar.ovk").data.takeWhile (fun c => c ≠ '.'))
              ++ "-" ++ toString ((⟨[2], [20], [1], [0]⟩ : IndexTables).tblcnt.getD i 0) ++ "."
              ++ (if (classify "foo.bar.ovk").filetype = fileType.NWK then "wav" else "ogg"))) ∧
    ((filepathBase "foo.bar.ovk").data.count '.' ≤ 1 →
      String.mk ((filepathBase "foo.bar.ovk").data.takeWhile (fun c => c ≠ '.'))
        = baseWithoutExt "foo.bar.ovk") :=
  destination_path (fun _ => none) "out" "foo.bar.ovk" dottedWorld dottedOvk 1 ⟨[2], [20], [1], [0]⟩
    (by decide) (by decide) (by decide) (by decide) (by decide) (by rfl)

set_option maxRecDepth 100000 in
/-- C10 as stated fails on `foo.bar.ovk`: the destination is `out/foo-1.ogg`, while the base
name without its extension is `foo.bar`. -/
theorem destination_not_base_without_ext :
    (processNWAFile (fun _ => none) "out" "foo.bar.ovk" dottedWorld).dispatched.map
        (fun task => task.filename) = ["out/foo-1.ogg"] ∧
    baseWithoutExt "foo.bar.ovk" = "foo.bar" ∧
    filepathJoin "out" (entryName (baseWithoutExt "foo.bar.ovk") 1 "ogg") = "out/foo.bar-1.ogg" ∧
    (processNWAFile (fun _ => none) "out" "foo.bar.ovk" dottedWorld).dispatched.map
        (fun task => task.filename)
      ≠ [filepathJoin "out" (entryName (baseWithoutExt "foo.bar.ovk") 1 "ogg")] := by
  decide

/-! ## Decimal rendering of sequence numbers -/

/-- A decimal digit character carries its digit. -/
theorem digitValue_digitChar (d : Nat) (h : d < 10) : digitValue (Nat.digitChar d) = d := by
  interval_cases d <;> rfl

/-- A decimal digit character is not the minus sign or a slash or a dot. -/
theorem digitChar_plain (d : Nat) (h : d < 10) :
    Nat.digitChar d ≠ '-' ∧ Nat.digitChar d ≠ '/' ∧ Nat.digitChar d ≠ '.' := by
  interval_cases d <;> decide

/-- Reading back the digits produced by `Nat.toDigitsCore` gives the number. -/
theorem decimalValue_toDigitsCore (fuel n : Nat) (ds : List Char) (h : n < fuel) :
    decimalValue 0 (Nat.toDigitsCore 10 fuel n ds) = decimalValue n ds := by
  induction fuel generalizing n ds with
  | zero => omega
  | succ fuel ih =>
    unfold Nat.toDigitsCore
    have hv := digitValue_digitChar (n % 10) (Nat.mod_lt _ (by omega))
    by_cases h0 : n / 10 = 0
    · simp only [h0, if_true]
      have : n % 10 = n := Nat.mod_eq_of_lt (by omega)
      rw [this] at hv
      simp [decimalValue, hv, this]
    · simp only [h0, if_false]
      rw [ih (n / 10) _ (by omega)]
      have : n / 10 * 10 + n % 10 = n := by omega
      simp [decimalValue, hv, this]

/-- Every character produced by `Nat.toDigitsCore` in base 10 is a plain digit. -/
theorem toDigitsCore_plain (fuel n : Nat) (ds : List Char)
    (hds : ∀ c ∈ ds, c ≠ '-' ∧ c ≠ '/' ∧ c ≠ '.') :
    ∀ c ∈ Nat.toDigitsCore 10 fuel n ds, c ≠ '-' ∧ c ≠ '/' ∧ c ≠ '.' := by
  induction fuel generalizing n ds with
  | zero => simpa [Nat.toDigitsCore] using hds
  | succ fuel ih =>
    unfold Nat.toDigitsCore
    have hd := digitChar_plain (n % 10) (Nat.mod_lt _ (by omega))
    have hcons : ∀ c ∈ Nat.digitChar (n % 10) :: ds, c ≠ '-' ∧ c ≠ '/' ∧ c ≠ '.' := by
      intro c hc
      rcases List.mem_cons.1 hc with rfl | hc
      · exact hd
      · exact hds c hc
    by_cases h0 : n / 10 = 0
    · simp only [h0, if_true]; exact hcons
    · simp only [h0, if_false]; exact ih _ _ hcons

/-- The decimal rendering of a natural number determines it. -/
theorem natRepr_injective (a b : Nat) (h : (Nat.repr a).data = (Nat.repr b).data) : a = b := by
  have ha := decimalValue_toDigitsCore (a + 1) a [] (by omega)
  have hb := decimalValue_toDigitsCore (b + 1) b [] (by omega)
  simp only [Nat.repr, Nat.toDigits, List.asString] at h
  rw [h] at ha
  simpa [decimalValue] using ha.symm.trans hb

/-- The characters of the decimal rendering of a natural number are plain digits. -/
theorem natRepr_plain (a : Nat) : ∀ c ∈ (Nat.repr a).data, c ≠ '-' ∧ c ≠ '/' ∧ c ≠ '.' := by
  simp only [Nat.repr, Nat.toDigits, List.asString]
  exact toDigitsCore_plain _ _ [] (by simp)

/-- The characters of `%d` applied to an integer: a minus sign for a negative number, then
the digits of the absolute value. -/
theorem intToString_data (i : Int) :
    (toString i).data
      = if i < 0 then '-' :: (Nat.repr i.natAbs).data else (Nat.repr i.natAbs).data := by
  cases i with
  | ofNat m =>
    have : ¬ (Int.ofNat m < 0) := by simp
    simp only [this, if_false]
    rfl
  | negSucc m =>
    have : Int.negSucc m < 0 := Int.negSucc_lt_zero m
    simp only [this, if_true]
    rfl

/-- The rendering `%d` of an integer determines it. -/
theorem intToString_injective (a b : Int) (h : toString a = toString b) : a = b := by
  have h' : (toString a).data = (toString b).data := by rw [h]
  rw [intToString_data, intToString_data] at h'
  by_cases ha : a < 0 <;> by_cases hb : b < 0 <;> simp only [ha, hb, if_true, if_false] at h'
  · have := natRepr_injective _ _ (List.cons_injective h')
    omega
  · have hh := (natRepr_plain b.natAbs '-' (by rw [← h']; simp)).1
    exact absurd rfl hh
  · have hh := (natRepr_plain a.natAbs '-' (by rw [h']; simp)).1
    exact absurd rfl hh
  · have := natRepr_injective _ _ h'
    omega

/-- The rendering `%d` of an integer has no slash and no dot, and is not empty. -/
theorem intToString_plain (a : Int) :
    (∀ c ∈ (toString a).data, c ≠ '/' ∧ c ≠ '.') := by
  rw [intToString_data]
  intro c hc
  split at hc
  · rcases List.mem_cons.1 hc with rfl | hc
    · decide
    · exact (natRepr_plain _ c hc).2
  · exact (natRepr_plain _ c hc).2

/-! ## Joined paths -/

/-- Splitting distributes over a separator. -/
theorem splitOnChar_append (sep : Char) (a b : List Char) :
    splitOnChar sep (a ++ sep :: b) = splitOnChar sep a ++ splitOnChar sep b := by
  induction a with
  | nil => simp [splitOnChar]
  | cons c a ih =>
    by_cases h : c = sep
    · simp [splitOnChar, h, ih]
    · obtain ⟨r', hr'⟩ := splitOnChar_head sep a
      simp only [List.cons_append, splitOnChar, h, if_false, List.append_eq]
      rw [ih]
      rw [hr']
      simp

/-- A text without the separator is a single piece. -/
theorem splitOnChar_plain (sep : Char) (b : List Char) (h : sep ∉ b) :
    splitOnChar sep b = [b] := by
  induction b with
  | nil => rfl
  | cons c b ih =>
    have hc : c ≠ sep := fun e => h (by simp [e])
    have hb : sep ∉ b := fun e => h (by simp [e])
    simp [splitOnChar, hc, ih hb]

/-- Cleaning keeps a plain element. -/
theorem cleanStep_plain (rooted : Bool) (stack : List (List Char)) (name : List Char)
    (h : PlainName name) : cleanStep rooted stack name = name :: stack := by
  obtain ⟨h1, _, h3, h4⟩ := h
  simp [cleanStep, h1, h3, h4]

/-- Joining elements the last of which is `name`. -/
theorem joinSlash_snoc (s : List (List Char)) (name : List Char) :
    joinSlash (s ++ [name]) = (if s = [] then [] else joinSlash s ++ ['/']) ++ name := by
  induction s with
  | nil => simp [joinSlash]
  | cons x s ih =>
    cases s with
    | nil => simp [joinSlash]
    | cons y s =>
      simp only [List.cons_append, joinSlash, List.append_eq] at ih ⊢
      rw [ih]
      simp

/-- Function `filepath.Join` with a plain name: the name follows a lead that depends on
the directory only. -/
theorem filepathJoin_plain (dir name : String) (h : PlainName name.data) :
    (filepathJoin dir name).data = joinLead dir.data ++ name.data := by
  have hne : name.data ≠ [] := h.1
  by_cases hd : dir.data = []
  · have hs : splitOnChar '/' name.data = [name.data] := splitOnChar_plain _ _ h.2.1
    have hh : name.data.head? ≠ some '/' := by
      intro e
      cases hx : name.data with
      | nil => exact hne hx
      | cons c cs => rw [hx] at e; simp at e; exact h.2.1 (by rw [hx, e]; simp)
    simp only [filepathJoin, hd, joinLead, ne_eq, not_true_eq_false, if_false, hne,
      not_false_eq_true, if_true, cleanChars, hs, List.foldl_cons, List.foldl_nil,
      cleanStep_plain _ _ _ h, List.reverse_singleton, joinSlash, hh, decide_False,
      Bool.false_eq_true, List.nil_append]
  · have hs : splitOnChar '/' (dir.data ++ '/' :: name.data)
        = splitOnChar '/' dir.data ++ [name.data] := by
      rw [splitOnChar_append, splitOnChar_plain _ _ h.2.1]
    have hh : (dir.data ++ '/' :: name.data).head? = dir.data.head? := by
      cases hx : dir.data with
      | nil => exact absurd hx hd
      | cons c cs => simp
    simp only [filepathJoin, hd, joinLead, ne_eq, not_false_eq_true, if_true, if_false,
      cleanChars, hs, hh, List.foldl_append, List.foldl_cons, List.foldl_nil,
      cleanStep_plain _ _ _ h, List.reverse_cons, joinSlash_snoc]
    rw [if_neg (by simp [hne])]
    simp

/-- The lead of a joined path is empty or ends in a slash. -/
theorem joinLead_shape (dir : List Char) : joinLead dir = [] ∨ ∃ q, joinLead dir = q ++ ['/'] := by
  unfold joinLead
  by_cases hd : dir = []
  · simp [hd]
  · simp only [hd, if_false]
    generalize decide (dir.head? = some '/') = rooted
    generalize (splitOnChar '/' dir).foldl (cleanStep rooted) [] = stack
    by_cases hs : stack = []
    · cases rooted
      · left; simp [hs]
      · right; exact ⟨[], by simp [hs]⟩
    · right
      exact ⟨(if rooted = true then ['/'] else []) ++ joinSlash stack.reverse,
        by simp only [hs, if_false, List.append_assoc]⟩

/-- The characters of an entry name. -/
theorem entryName_data (stem : String) (cnt : Int) (ext : String) :
    (entryName stem cnt ext).data
      = stem.data ++ '-' :: ((toString cnt).data ++ '.' :: ext.data) := by
  simp [entryName, String.data_append]

/-- An entry name built on a stem without a slash is a plain path element. -/
theorem entryName_plain (stem : String) (cnt : Int) (ext : String)
    (hstem : '/' ∉ stem.data) (hext : '/' ∉ ext.data) :
    PlainName (entryName stem cnt ext).data := by
  rw [entryName_data]
  refine ⟨by simp, ?_, ?_, ?_⟩
  · intro h
    rcases List.mem_append.1 h with h | h
    · exact hstem h
    · rcases List.mem_cons.1 h with h | h
      · exact absurd h (by decide)
      · rcases List.mem_append.1 h with h | h
        · exact (intToString_plain cnt _ h).1 rfl
        · rcases List.mem_cons.1 h with h | h
          · exact absurd h (by decide)
          · exact hext h
  · intro h
    have : '-' ∈ ['.'] := by rw [← h]; simp
    exact absurd this (by decide)
  · intro h
    have : '-' ∈ ['.', '.'] := by rw [← h]; simp
    exact absurd this (by decide)

/-- Destinations built from different sequence numbers differ. -/
theorem destination_injective (dir stem ext : String) (a b : Int)
    (hstem : '/' ∉ stem.data) (hext : '/' ∉ ext.data)
    (h : filepathJoin dir (entryName stem a ext) = filepathJoin dir (entryName stem b ext)) :
    a = b := by
  have h' : (filepathJoin dir (entryName stem a ext)).data
      = (filepathJoin dir (entryName stem b ext)).data := by rw [h]
  rw [filepathJoin_plain _ _ (entryName_plain stem a ext hstem hext),
    filepathJoin_plain _ _ (entryName_plain stem b ext hstem hext),
    entryName_data, entryName_data] at h'
  have h1 := List.append_cancel_left (List.append_cancel_left h')
  have h2 := List.append_cancel_right (List.cons_injective h1)
  exact intToString_injective a b (String.ext h2)

/-- Function `filepath.Base` of a lead followed by a plain name is the name. -/
theorem filepathBase_plain (lead name : List Char) (hname : PlainName name)
    (hlead : lead = [] ∨ ∃ q, lead = q ++ ['/']) :
    filepathBase (String.mk (lead ++ name)) = String.mk name := by
  obtain ⟨hne, hslash, _, _⟩ := hname
  have hall : ∀ c ∈ name.reverse, (decide (c ≠ '/')) = true := by
    intro c hc
    have : c ≠ '/' := fun e => hslash (by rw [← e]; exact List.mem_reverse.1 hc)
    simpa using this
  have hrev : name.reverse ≠ [] := by simpa using hne
  have hdrop : (name.reverse ++ lead.reverse).dropWhile (fun c => decide (c = '/'))
      = name.reverse ++ lead.reverse := by
    cases hx : name.reverse with
    | nil => exact absurd hx hrev
    | cons c cs =>
      have hc : c ≠ '/' := by
        have := hall c (by rw [hx]; simp)
        simpa using this
      simp [List.dropWhile, hc]
  have htake : (name.reverse ++ lead.reverse).takeWhile (fun c => decide (c ≠ '/'))
      = name.reverse := by
    rw [List.takeWhile_append_of_pos hall]
    rcases hlead with h | ⟨q, h⟩
    · simp [h]
    · simp [h, List.takeWhile]
  have hdata : lead ++ name ≠ [] := by simp [hne]
  simp only [filepathBase, hdata, if_false, List.reverse_append, hdrop, List.reverse_reverse,
    htake, hne]

/-- The stem of a destination path is longer than the stem it was built from. -/
theorem outputStem_destination (dir stem ext : String) (cnt : Int)
    (hstem : '/' ∉ stem.data) (hdot : '.' ∉ stem.data) (hext : '/' ∉ ext.data) :
    stem.data.length
      < (outputStem (filepathJoin dir (entryName stem cnt ext))).data.length := by
  have hp := entryName_plain stem cnt ext hstem hext
  have hj : filepathJoin dir (entryName stem cnt ext)
      = String.mk (joinLead dir.data ++ (entryName stem cnt ext).data) :=
    String.ext (filepathJoin_plain _ _ hp)
  rw [outputStem_eq, hj, filepathBase_plain _ _ hp (joinLead_shape _), entryName_data]
  have hall : ∀ c ∈ stem.data, (decide (c ≠ '.')) = true := by
    intro c hc
    have : c ≠ '.' := fun e => hdot (by rw [← e]; exact hc)
    simpa using this
  rw [List.takeWhile_append_of_pos hall]
  simp [List.takeWhile]

/-- The stem kept by line 91 has no dot. -/
theorem outputStem_no_dot (inputfile : String) : '.' ∉ (outputStem inputfile).data := by
  rw [outputStem_eq]
  intro h
  have := List.mem_takeWhile_imp h
  simp at this

/-- Function `filepath.Base` of a path holding a dot has no slash. -/
theorem filepathBase_no_slash (path : String) (hdot : '.' ∈ path.data) :
    '/' ∉ (filepathBase path).data := by
  have hne : path.data ≠ [] := List.ne_nil_of_mem hdot
  have hdrop : path.data.reverse.dropWhile (fun c => decide (c = '/')) ≠ [] := by
    intro h
    have := (List.dropWhile_eq_nil_iff).1 h '.' (List.mem_reverse.2 hdot)
    simp at this
  have hhead := List.head_dropWhile_not (fun c => decide (c = '/')) path.data.reverse hdrop
  simp only [filepathBase, hne, if_false, List.reverse_reverse]
  cases hx : path.data.reverse.dropWhile (fun c => decide (c = '/')) with
  | nil => exact absurd hx hdrop
  | cons c cs =>
    have hc : c ≠ '/' := by
      simp only [hx, List.head_cons, decide_eq_false_iff_not] at hhead
      exact hhead
    have ht : (c :: cs).takeWhile (fun c => decide (c ≠ '/')) ≠ [] := by
      simp [List.takeWhile, hc]
    have ht' : ((c :: cs).takeWhile (fun c => decide (c ≠ '/'))).reverse ≠ [] := by
      simpa using ht
    simp only [ht', if_false]
    intro hmem
    have := List.mem_takeWhile_imp (List.mem_reverse.1 hmem)
    simp at this

/-- The stem of a multi-stream archive has no slash. -/
theorem outputStem_no_slash (inputfile : String) (hk : (classify inputfile).multi) :
    '/' ∉ (outputStem inputfile).data := by
  rw [outputStem_eq]
  intro h
  exact filepathBase_no_slash inputfile (multi_has_dot inputfile hk) ((List.takeWhile_sublist _).subset h)

/-- The two output extensions have no slash. -/
theorem outext_no_slash (inputfile : String) : '/' ∉ (classify inputfile).outext.data := by
  unfold classify
  split_ifs <;> decide

/-- No destination of a multi-stream archive is the archive itself. -/
theorem destination_ne_archive (inputdir inputfile : String) (cnt : Int)
    (hk : (classify inputfile).multi) :
    filepathJoin inputdir (entryName (outputStem inputfile) cnt (classify inputfile).outext)
      ≠ inputfile := by
  intro h
  have := outputStem_destination inputdir (outputStem inputfile) (classify inputfile).outext cnt
    (outputStem_no_slash inputfile hk) (outputStem_no_dot inputfile) (outext_no_slash inputfile)
  rw [h] at this
  exact absurd this (lt_irrefl _)

/-! ## Running the tasks and the receive loop (C1) -/

/-- Tasks that are all extractable run to the end: each creates its destination and sends
one token, and the archive is left as it was. -/
theorem runTasks_done (codec : Codec) (inputfile : String) (arc : List Byte)
    (tasks : List Task) (w : World) (c : Nat)
    (hfile : w.fs.read inputfile = some arc)
    (hgood : ∀ task ∈ tasks, Extractable codec inputfile arc w.fs.denied task) :
    ∃ w1 : World, runTasks codec tasks w c = Run.done w1 (c + tasks.length) ∧
      w1.created = w.created ++ tasks.map (fun task => task.filename) ∧
      w1.fs.read inputfile = some arc ∧ w1.fs.denied = w.fs.denied := by
  induction tasks generalizing w c with
  | nil => exact ⟨w, rfl, by simp, hfile, rfl⟩
  | cons task tasks ih =>
    obtain ⟨hdf, ho, hs, hfit, hne, hcr, bytes, hpay⟩ := hgood task (by simp)
    have hfile' : w.fs.read task.datafile = some arc := by rw [hdf]; exact hfile
    have hstep := doDecode_done codec task.filetype task.filename task.datafile task.offset
      task.size w c arc bytes hfile' ho hs hfit hcr hpay
    have hread : ((w.openFile task.datafile).createFile task.filename bytes).fs.read inputfile
        = some arc := by
      have : ((w.openFile task.datafile).createFile task.filename bytes).fs
          = w.fs.write task.filename bytes := rfl
      rw [this, FS.read_write_other _ _ _ _ (Ne.symm hne), hfile]
    obtain ⟨w1, hrun, hcreated, hread1, hden⟩ :=
      ih ((w.openFile task.datafile).createFile task.filename bytes) (c + 1) hread
        (fun task' hmem => hgood task' (by simp [hmem]))
    refine ⟨w1, ?_, ?_, hread1, ?_⟩
    · simp only [runTasks, hstep, hrun, List.length_cons]
      congr 1; omega
    · rw [hcreated]
      simp [World.createFile, World.openFile]
    · rw [hden]; rfl

/-- The number of tokens in the channel after the tasks have run without a fatal error. -/
theorem runTasks_sent (codec : Codec) (tasks : List Task) (w w1 : World) (c c1 : Nat)
    (h : runTasks codec tasks w c = Run.done w1 c1) : c1 = c + tasks.length := by
  induction tasks generalizing w c with
  | nil =>
    simp only [runTasks, Run.done.injEq] at h
    simp [h.2]
  | cons task tasks ih =>
    simp only [runTasks] at h
    cases hd : doDecode codec task.filetype task.filename task.datafile task.offset task.size w c with
    | fatal w2 => rw [hd] at h; cases h
    | done w2 c2 =>
      rw [hd] at h
      have hc2 := doDecode_sent _ _ _ _ _ _ _ _ _ _ hd
      have := ih w2 c2 h
      simp only [List.length_cons]
      omega

/-- The receive loop ends exactly when the channel holds at least `n` tokens. -/
theorem receiveAll_isSome (n c : Nat) : (receiveAll n c).isSome = true ↔ n ≤ c := by
  induction n generalizing c with
  | zero => simp [receiveAll]
  | succ n ih =>
    cases c with
    | zero => simp [receiveAll]
    | succ c => simp [receiveAll, ih]

/-- The dispatcher returns only when every index entry was valid: the receive loop is set
to `indexcount` receives and each dispatched task sends at most one token. -/
theorem returns_only_if_all_valid (codec : Codec) (inputdir inputfile : String) (w : World)
    (arc : List Byte) (n : Nat) (t : IndexTables)
    (hk : (classify inputfile).multi) (hfile : w.fs.read inputfile = some arc)
    (hlen : 4 ≤ arc.length) (hcount : int32At arc 0 = n) (hn : 0 < n)
    (hidx : readIndex (classify inputfile).headblksz n (arc.drop 4) = Except.ok t)
    (hret : (processNWAFile codec inputdir inputfile w).exit = Exit.returned) :
    (validPositions t n).length = n := by
  have h := processNWAFile_multi codec inputdir inputfile w arc hk hfile
  rw [binaryRead_count arc hlen, hcount] at h
  have hn' : ¬ ((n : Int) ≤ 0) := by omega
  simp only [hn', if_false, Int.toNat_ofNat, hidx, dispatchLoop_tasks] at h
  rw [h] at hret
  split at hret
  · cases hret
  · rename_i w3 c hrun
    have hc := runTasks_sent _ _ _ _ _ _ hrun
    split at hret
    · cases hret
    · rename_i x hx
      have : (receiveAll n c).isSome = true := by rw [hx]; rfl
      have hle := (receiveAll_isSome n c).1 this
      have := validPositions_length_le t n
      simp only [List.length_map, Nat.zero_add] at hc
      omega

set_option maxRecDepth 100000 in
/-- C1 on `sample.ovk` (count 2, second entry invalid): one task is dispatched and sends
its token, the receive loop is set to two receives, and the call does not return. -/
theorem sample_waits_for_two_tokens :
    (processNWAFile (fun _ => none) "out" "sample.ovk" sampleWorld).dispatched.length = 1 ∧
    (processNWAFile (fun _ => none) "out" "sample.ovk" sampleWorld).awaited = 2 ∧
    (processNWAFile (fun _ => none) "out" "sample.ovk" sampleWorld).exit = Exit.deadlock ∧
    (processNWAFile (fun _ => none) "out" "sample.ovk" sampleWorld).world.created
      = ["out/sample-1.ogg"] ∧
    (processNWAFile (fun _ => none) "out" "sample.ovk" sampleWorld).world.fs.read "out/sample-1.ogg"
      = some ((sampleOvk.drop 20).take 100) := by
  decide

/-! ## Output files (C2) -/

/-- The destinations of the tasks of the valid positions, from their sequence numbers. -/
theorem task_filenames (inputdir inputfile : String) (t : IndexTables) (n : Nat) :
    ((validPositions t n).map (taskFor inputdir inputfile (classify inputfile) t)).map
        (fun task => task.filename)
      = (validSequenceNumbers t n).map (destinationFor inputdir inputfile) := by
  simp [validSequenceNumbers, destinationFor, taskFor, List.map_map, Function.comp]

/-- With every valid entry extractable, the call ends by returning or blocked in the
receive loop, having created the destinations of the valid entries in order. -/
theorem processNWAFile_extracts (codec : Codec) (inputdir inputfile : String) (w : World)
    (arc : List Byte) (n : Nat) (t : IndexTables)
    (hk : (classify inputfile).multi) (hfile : w.fs.read inputfile = some arc)
    (hlen : 4 ≤ arc.length) (hcount : int32At arc 0 = n) (hn : 0 < n)
    (hidx : readIndex (classify inputfile).headblksz n (arc.drop 4) = Except.ok t)
    (hrange : ∀ i, i < n → validAt t i →
      t.tbloff.getD i 0 + t.tblsiz.getD i 0 ≤ arc.length)
    (hcodec : (classify inputfile).filetype = fileType.NWK → ∀ i, i < n → validAt t i →
      ∃ bytes, codec (entryRange arc t i) = some (Stream.full bytes))
    (hcreate : ∀ i, i < n → validAt t i →
      destinationFor inputdir inputfile (t.tblcnt.getD i 0) ∉ w.fs.denied) :
    (processNWAFile codec inputdir inputfile w).exit ≠ Exit.fatal ∧
    (processNWAFile codec inputdir inputfile w).world.created
      = w.created ++ (validSequenceNumbers t n).map (destinationFor inputdir inputfile) := by
  have h := processNWAFile_multi codec inputdir inputfile w arc hk hfile
  rw [binaryRead_count arc hlen, hcount] at h
  have hn' : ¬ ((n : Int) ≤ 0) := by omega
  simp only [hn', if_false, Int.toNat_ofNat, hidx, dispatchLoop_tasks] at h
  have hgood : ∀ task ∈ (validPositions t n).map (taskFor inputdir inputfile (classify inputfile) t),
      Extractable codec inputfile arc w.fs.denied task := by
    intro task hmem
    obtain ⟨i, hi, rfl⟩ := List.mem_map.1 hmem
    have hi' : i < n ∧ validAt t i := by simpa [validPositions] using hi
    obtain ⟨hlt, hv⟩ := hi'
    refine ⟨rfl, le_of_lt hv.1, le_of_lt hv.2, hrange i hlt hv,
      destination_ne_archive inputdir inputfile _ hk, hcreate i hlt hv, ?_⟩
    by_cases hft : (classify inputfile).filetype = fileType.NWK
    · obtain ⟨bytes, hb⟩ := hcodec hft i hlt hv
      exact ⟨bytes, by simpa [taskFor, hft, entryRange] using hb⟩
    · exact ⟨entryRange arc t i, by simp [taskFor, hft, entryRange]⟩
  obtain ⟨w1, hrun, hcreated, _, _⟩ :=
    runTasks_done codec inputfile arc _
      { w.openFile inputfile with logs := (w.openFile inputfile).logs ++
          (dispatchLoop inputdir inputfile (outputStem inputfile) (classify inputfile) t n).1 }
      0 hfile hgood
  have hc : w1.created
      = w.created ++ (validSequenceNumbers t n).map (destinationFor inputdir inputfile) := by
    rw [hcreated, task_filenames]; rfl
  simp only [hrun] at h
  rw [h]
  cases receiveAll n (0 + (List.map (taskFor inputdir inputfile (classify inputfile) t)
      (validPositions t n)).length) with
  | none => exact ⟨by simp, hc⟩
  | some v => exact ⟨by simp, hc⟩

/-- With every valid entry extractable, the call returns exactly when every index entry is
valid; with an invalid entry it stays blocked in the receive loop. -/
theorem exit_of_extractable (codec : Codec) (inputdir inputfile : String) (w : World)
    (arc : List Byte) (n : Nat) (t : IndexTables)
    (hk : (classify inputfile).multi) (hfile : w.fs.read inputfile = some arc)
    (hlen : 4 ≤ arc.length) (hcount : int32At arc 0 = n) (hn : 0 < n)
    (hidx : readIndex (classify inputfile).headblksz n (arc.drop 4) = Except.ok t)
    (hrange : ∀ i, i < n → validAt t i →
      t.tbloff.getD i 0 + t.tblsiz.getD i 0 ≤ arc.length)
    (hcodec : (classify inputfile).filetype = fileType.NWK → ∀ i, i < n → validAt t i →
      ∃ bytes, codec (entryRange arc t i) = some (Stream.full bytes))
    (hcreate : ∀ i, i < n → validAt t i →
      destinationFor inputdir inputfile (t.tblcnt.getD i 0) ∉ w.fs.denied) :
    (processNWAFile codec inputdir inputfile w).exit
      = if (validPositions t n).length = n then Exit.returned else Exit.deadlock := by
  have hne := (processNWAFile_extracts codec inputdir inputfile w arc n t hk hfile hlen hcount hn
    hidx hrange hcodec hcreate).1
  by_cases hall : (validPositions t n).length = n
  · simp only [hall, if_true]
    have h := processNWAFile_multi codec inputdir inputfile w arc hk hfile
    rw [binaryRead_count arc hlen, hcount] at h
    have hn' : ¬ ((n : Int) ≤ 0) := by omega
    simp only [hn', if_false, Int.toNat_ofNat, hidx, dispatchLoop_tasks] at h
    rw [h] at hne ⊢
    split
    · rename_i w3 hrun; simp [hrun] at hne
    · rename_i w3 c hrun
      have hc := runTasks_sent _ _ _ _ _ _ hrun
      simp only [List.length_map, Nat.zero_add] at hc
      have hsome : (receiveAll n c).isSome = true := (receiveAll_isSome n c).2 (by omega)
      cases hr : receiveAll n c with
      | none => rw [hr] at hsome; cases hsome
      | some v => rfl
  · simp only [hall, if_false]
    cases he : (processNWAFile codec inputdir inputfile w).exit with
    | fatal => exact absurd he hne
    | deadlock => rfl
    | returned =>
      exact absurd (returns_only_if_all_valid codec inputdir inputfile w arc n t hk hfile hlen
        hcount hn hidx he) hall

/-- C2, amended: for a multi-stream archive with positive entry count whose index and
referenced ranges are readable (the codec decoding each range in full for kind-A, and each
destination being creatable), the call does not end fatally, the files it creates are the
destinations of the valid entries, and the number of distinct output files equals the
number of distinct sequence numbers among the valid entries; this is the number of valid
entries exactly when their sequence numbers are pairwise distinct. -/
theorem output_files_count (codec : Codec) (inputdir inputfile : String) (w : World)
    (arc : List Byte) (n : Nat) (t : IndexTables)
    (hk : (classify inputfile).multi) (hfile : w.fs.read inputfile = some arc)
    (hlen : 4 ≤ arc.length) (hcount : int32At arc 0 = n) (hn : 0 < n)
    (hidx : readIndex (classify inputfile).headblksz n (arc.drop 4) = Except.ok t)
    (hrange : ∀ i, i < n → validAt t i →
      t.tbloff.getD i 0 + t.tblsiz.getD i 0 ≤ arc.length)
    (hcodec : (classify inputfile).filetype = fileType.NWK → ∀ i, i < n → validAt t i →
      ∃ bytes, codec (entryRange arc t i) = some (Stream.full bytes))
    (hcreate : ∀ i, i < n → validAt t i →
      destinationFor inputdir inputfile (t.tblcnt.getD i 0) ∉ w.fs.denied) :
    (processNWAFile codec inputdir inputfile w).exit ≠ Exit.fatal ∧
    (processNWAFile codec inputdir inputfile w).world.created
      = w.created ++ (validSequenceNumbers t n).map (destinationFor inputdir inputfile) ∧
    distinctCount ((validSequenceNumbers t n).map (destinationFor inputdir inputfile))
      = distinctCount (validSequenceNumbers t n) ∧
    distinctCount (validSequenceNumbers t n) ≤ (validPositions t n).length ∧
    (distinctCount (validSequenceNumbers t n) = (validPositions t n).length
      ↔ (validSequenceNumbers t n).Nodup) := by
  have hinj : Function.Injective (destinationFor inputdir inputfile) := by
    intro a b hab
    exact destination_injective inputdir (outputStem inputfile) (classify inputfile).outext a b
      (outputStem_no_slash inputfile hk) (outext_no_slash inputfile) hab
  have hvlen : (validSequenceNumbers t n).length = (validPositions t n).length := by
    simp [validSequenceNumbers]
  obtain ⟨h1, h2⟩ := processNWAFile_extracts codec inputdir inputfile w arc n t hk hfile hlen
    hcount hn hidx hrange hcodec hcreate
  refine ⟨h1, h2, ?_, ?_, ?_⟩
  · simp only [distinctCount, List.dedup_map_of_injective hinj, List.length_map]
  · rw [← hvlen]
    exact (List.dedup_sublist _).length_le
  · rw [← hvlen]
    constructor
    · intro h
      exact List.dedup_eq_self.1 ((List.dedup_sublist _).eq_of_length h)
    · intro h
      simp only [distinctCount, h.dedup]

set_option maxRecDepth 100000 in
/-- Witness for C2, amended, on `pair.nwk` with the copying codec. -/
theorem output_files_count_witness :
    (processNWAFile copyCodec "out" "pair.nwk" pairWorld).exit ≠ Exit.fatal ∧
    (processNWAFile copyCodec "out" "pair.nwk" pairWorld).world.created
      = pairWorld.created
        ++ (validSequenceNumbers pairTables 2).map (destinationFor "out" "pair.nwk") ∧
    distinctCount ((validSequenceNumbers pairTables 2).map (destinationFor "out" "pair.nwk"))
      = distinctCount (validSequenceNumbers pairTables 2) ∧
    distinctCount (validSequenceNumbers pairTables 2) ≤ (validPositions pairTables 2).length ∧
    (distinctCount (validSequenceNumbers pairTables 2) = (validPositions pairTables 2).length
      ↔ (validSequenceNumbers pairTables 2).Nodup) :=
  output_files_count copyCodec "out" "pair.nwk" pairWorld pairNwk 2 pairTables
    (by decide) (by decide) (by decide) (by decide) (by decide) (by rfl) (by decide)
    (fun _ i _ _ => ⟨entryRange pairNwk pairTables i, rfl⟩) (by decide)

set_option maxRecDepth 100000 in
/-- C2 as stated fails on `dup.ovk`: both entries are valid and readable, the call returns,
and one distinct output file is produced for two valid entries. -/
theorem same_sequence_number_one_file :
    readIndex 16 2 (dupOvk.drop 4) = Except.ok dupTables ∧
    (validPositions dupTables 2).length = 2 ∧
    (processNWAFile copyCodec "out" "dup.ovk" dupWorld).exit = Exit.returned ∧
    (processNWAFile copyCodec "out" "dup.ovk" dupWorld).world.created
      = ["out/dup-1.ogg", "out/dup-1.ogg"] ∧
    distinctCount (processNWAFile copyCodec "out" "dup.ovk" dupWorld).world.created = 1 ∧
    distinctCount (processNWAFile copyCodec "out" "dup.ovk" dupWorld).world.created
      ≠ (validPositions dupTables 2).length := by
  refine ⟨rfl, ?_, ?_, ?_, ?_, ?_⟩ <;> decide

end Nwatowav
